import Mathlib

/-!
Verification development for `docker_pull.py`.

The Python source is shallowly embedded: pure functions become Lean
functions, the mutable HTTP session / filesystem become explicit state
threading, and Python exceptions become `Except`.  Library primitives
that the program treats as black boxes (SHA-256 hex digests, base64,
gzip decompression) are abstracted as function parameters, so every
theorem quantifies over them.  Python `str` values that the code splits
and joins are modelled as `List Char`; payload bytes are `List Nat`.
-/

set_option maxHeartbeats 1000000

/-! ## Definitions

All embedded definitions come first; theorems follow. -/

/-! ### Character-list string utilities (Python `str.split`, `str.join`, `in`) -/

/-- Python `s.split(sep)` for a single-character separator (no maxsplit).
`"".split(c) = ['']`, and separators at the ends produce empty pieces,
exactly as in Python. -/
def splitOnChar (sep : Char) : List Char → List (List Char)
  | [] => [[]]
  | c :: cs =>
    if c = sep then [] :: splitOnChar sep cs
    else
      match splitOnChar sep cs with
      | [] => [[c]]
      | p :: ps => (c :: p) :: ps

/-- Python `sep.join(parts)` for a single-character separator. -/
def joinChar (sep : Char) : List (List Char) → List Char
  | [] => []
  | [p] => p
  | p :: ps => p ++ sep :: joinChar sep ps

/-! ### `chain_ids` (docker_pull.py lines 44-57)

`H` abstracts `fun s => hashlib.sha256(s.encode()).hexdigest()`.
The Python function indexes `ids[0]` before the length check, so it is
only called on nonempty lists; the `[]` equation is a junk value. -/

def chain_ids (H : String → String) : List String → List String
  | [] => []
  | [x] => [x]
  | x :: y :: rest => x :: chain_ids H (("sha256:" ++ H (x ++ " " ++ y)) :: rest)
  termination_by l => l.length

/-! ### `ImageFetcher.parser` (docker_pull.py lines 447-470)

Python strings are modelled as `List Char`; `str.split('/')`, `str.split(':')`
and `str.rsplit('@')` (no maxsplit, hence identical to `split('@')`) are
`splitOnChar`; `'/'.join` is `joinChar`.  `raise Exception(...)` becomes
`Except.error` carrying the formatted message. -/

def DOCKER_REGISTRY_HOST : List Char := "registry-1.docker.io".toList

def parser (image : List Char) : Except (List Char) (List Char × List Char × List Char) :=
  let imageParts := splitOnChar '/' image
  let headSeg := imageParts.headD []
  let isRegistryHead : Bool := headSeg.contains '.' || headSeg.contains ':'
  let registry :=
    if imageParts.length = 1 then DOCKER_REGISTRY_HOST
    else if isRegistryHead then headSeg
    else DOCKER_REGISTRY_HOST
  let nsParts :=
    if imageParts.length = 1 then ["library".toList]
    else if isRegistryHead then (imageParts.drop 1).dropLast
    else imageParts.dropLast
  let lastSeg := imageParts.getLastD []
  let imageNameTag :=
    if lastSeg.contains '@' then splitOnChar '@' lastSeg else splitOnChar ':' lastSeg
  let nsAll := nsParts ++ [imageNameTag.headD []]
  match imageNameTag with
  | [_] => .ok (registry, joinChar '/' nsAll, "latest".toList)
  | [_, t] => .ok (registry, joinChar '/' nsAll, t)
  | _ => .error ("Image format name ".toList ++ image ++ " is invalid".toList)

/-- `parser` lifted to Lean `String`, for readable concrete statements. -/
def parserS (image : String) : Except String (String × String × String) :=
  match parser image.toList with
  | .ok (r, n, t) => .ok (String.mk r, String.mk n, String.mk t)
  | .error e => .error (String.mk e)

/-- The last `/`-segment of a reference (spec wording for C5/C6). -/
def lastSegOf (image : List Char) : List Char := (splitOnChar '/' image).getLastD []

/-- The name/tag split of the last segment: on `@` when present, else on `:`
(spec wording for C5/C6). -/
def nameTagOf (image : List Char) : List (List Char) :=
  if (lastSegOf image).contains '@' then splitOnChar '@' (lastSegOf image)
  else splitOnChar ':' (lastSegOf image)

/-! ### Canonical JSON (`json.dumps(..., separators=(',', ':'))`) -/

inductive JVal where
  | null : JVal
  | bool (b : Bool) : JVal
  | num (n : Int) : JVal
  | str (s : String) : JVal
  | arr (elems : List JVal) : JVal
  | obj (fields : List (String × JVal)) : JVal

def hexDigit (n : Nat) : Char :=
  if n < 10 then Char.ofNat (48 + n) else Char.ofNat (97 + (n - 10))

def uEscape4 (n : Nat) : List Char :=
  ['\\', 'u', hexDigit (n / 4096 % 16), hexDigit (n / 256 % 16),
   hexDigit (n / 16 % 16), hexDigit (n % 16)]

/-- One character of Python `json.dumps` output with `ensure_ascii=True`:
characters outside `0x20..0x7e` are `\uXXXX`-escaped (surrogate pairs above
the BMP), quote and backslash are escaped, control characters use the short
escapes. -/
def escapeChar (c : Char) : List Char :=
  if c = '"' then ['\\', '"']
  else if c = '\\' then ['\\', '\\']
  else if c = '\n' then ['\\', 'n']
  else if c = '\t' then ['\\', 't']
  else if c = '\r' then ['\\', 'r']
  else if c.toNat = 8 then ['\\', 'b']
  else if c.toNat = 12 then ['\\', 'f']
  else if c.toNat < 0x20 then uEscape4 c.toNat
  else if c.toNat ≤ 0x7e then [c]
  else if c.toNat < 0x10000 then uEscape4 c.toNat
  else uEscape4 (0xd800 + (c.toNat - 0x10000) / 0x400) ++
       uEscape4 (0xdc00 + (c.toNat - 0x10000) % 0x400)

def dumpsStr (s : String) : String :=
  "\"" ++ String.mk (s.toList.flatMap escapeChar) ++ "\""

mutual

def dumpsJ : JVal → String
  | .null => "null"
  | .bool b => if b then "true" else "false"
  | .num n => toString n
  | .str s => dumpsStr s
  | .arr es => "[" ++ dumpsArr es ++ "]"
  | .obj fs => "\x7b" ++ dumpsObj fs ++ "\x7d"

def dumpsArr : List JVal → String
  | [] => ""
  | [e] => dumpsJ e
  | e :: es => dumpsJ e ++ "," ++ dumpsArr es

def dumpsObj : List (String × JVal) → String
  | [] => ""
  | [(k, v)] => dumpsStr k ++ ":" ++ dumpsJ v
  | (k, v) :: fs => dumpsStr k ++ ":" ++ dumpsJ v ++ "," ++ dumpsObj fs

end


/-! ### Python `OrderedDict` operations (insertion order preserved) -/

def odHasKey (d : List (String × JVal)) (k : String) : Bool :=
  d.any (fun p => p.1 == k)

/-- `d[k] = v`: replace in place when the key exists, else append. -/
def odSet (d : List (String × JVal)) (k : String) (v : JVal) : List (String × JVal) :=
  if odHasKey d k then d.map (fun p => if p.1 == k then (k, v) else p)
  else d ++ [(k, v)]

/-- `d.update(u)`: apply `odSet` for each pair of `u` in order. -/
def odUpdate (d u : List (String × JVal)) : List (String × JVal) :=
  u.foldl (fun acc p => odSet acc p.1 p.2) d

/-- `del d[k]`: `KeyError` when the key is absent. -/
def odDel (d : List (String × JVal)) (k : String) : Except Unit (List (String × JVal)) :=
  if odHasKey d k then .ok (d.filter (fun p => !(p.1 == k))) else .error ()

/-! ### `v1_layers_ids` (docker_pull.py lines 60-115) -/

/-- The zeroed `container_config` struct of the non-top layer template. -/
def emptyContainerConfig : List (String × JVal) :=
  [("Hostname", .str ""), ("Domainname", .str ""), ("User", .str ""),
   ("AttachStdin", .bool false), ("AttachStdout", .bool false),
   ("AttachStderr", .bool false), ("Tty", .bool false), ("OpenStdin", .bool false),
   ("StdinOnce", .bool false), ("Env", .null), ("Cmd", .null), ("Image", .str ""),
   ("Volumes", .null), ("WorkingDir", .str ""), ("Entrypoint", .null),
   ("OnBuild", .null), ("Labels", .null)]

/-- Descriptor of a non-top layer (the `else` branch of the loop). -/
def midLayerDescriptor (chainId parent : String) : List (String × JVal) :=
  let cfg : List (String × JVal) :=
    [("container_config", .obj emptyContainerConfig),
     ("created", .str "1970-01-01T00:00:00Z"),
     ("layer_id", .str chainId)]
  if parent ≠ "" then cfg ++ [("parent", .str parent)] else cfg

/-- Descriptor of the layer the code treats as topmost (the `if` branch):
the fixed template, `parent` appended when truthy, then `update`d with the
image config minus `history` and `rootfs` (`KeyError` if either is absent). -/
def topLayerDescriptor (chainId parent : String) (config_image : List (String × JVal)) :
    Except Unit (List (String × JVal)) := do
  let cfg : List (String × JVal) :=
    [("architecture", .str "amd64"), ("config", .str ""), ("container", .str ""),
     ("container_config", .str ""), ("created", .str "1970-01-01T00:00:00Z"),
     ("docker_version", .str "18.06.1-ce"), ("layer_id", .str chainId),
     ("os", .str "linux")]
  let cfg := if parent ≠ "" then cfg ++ [("parent", .str parent)] else cfg
  let v1Img ← odDel config_image "history"
  let v1Img ← odDel v1Img "rootfs"
  return odUpdate cfg v1Img

/-- The loop body of `v1_layers_ids`: the source decides "topmost" by
comparing the current chain ID with `chain_ids_list[-1]` by value. -/
def v1_layers_ids_go (H : String → String) (lastChain : String)
    (config_image : List (String × JVal)) :
    List String → String → Except Unit (List String)
  | [], _ => .ok []
  | chainId :: rest, parent =>
    match (if chainId == lastChain then topLayerDescriptor chainId parent config_image
        else .ok (midLayerDescriptor chainId parent)) with
    | .error e => .error e
    | .ok cfg =>
      let p := "sha256:" ++ H (dumpsJ (.obj cfg))
      match v1_layers_ids_go H lastChain config_image rest p with
      | .error e => .error e
      | .ok r => .ok (p :: r)

def v1_layers_ids (H : String → String) (chain_ids_list : List String)
    (config_image : List (String × JVal)) : Except Unit (List String) :=
  v1_layers_ids_go H (chain_ids_list.getLastD "") config_image chain_ids_list ""

/-- Modelled from the spec: the claim's own description of `v1_layers_ids`,
which applies the merged top template exactly at the topmost (last) position
rather than to every element equal in value to the last chain ID. -/
def v1_layers_ids_spec_go (H : String → String)
    (config_image : List (String × JVal)) :
    List String → String → Except Unit (List String)
  | [], _ => .ok []
  | chainId :: rest, parent =>
    match (if rest.isEmpty then topLayerDescriptor chainId parent config_image
        else .ok (midLayerDescriptor chainId parent)) with
    | .error e => .error e
    | .ok cfg =>
      let p := "sha256:" ++ H (dumpsJ (.obj cfg))
      match v1_layers_ids_spec_go H config_image rest p with
      | .error e => .error e
      | .ok r => .ok (p :: r)

def v1_layers_ids_spec (H : String → String) (chains : List String)
    (config_image : List (String × JVal)) : Except Unit (List String) :=
  v1_layers_ids_spec_go H config_image chains ""

/-! ### HTTP session model (`requests.Session`, `ImageFetcher`)

The session is the ordered header dict; the network is an oracle
`net : method → url → headers → response`; every request actually issued is
collected in a log so that "no network traffic" and "retries exactly once"
are statable.  `b64` abstracts `base64.b64encode(...).decode()`. -/

structure HttpResp where
  status : Nat
  wwwAuthenticate : Option String
  token : String
  body : List Nat

abbrev Headers := List (String × String)

abbrev Net := String → String → Headers → HttpResp

abbrev ReqLog := List (String × String × Headers)

def hdrGet (h : Headers) (k : String) : Option String :=
  (h.find? (fun p => p.1 == k)).map (fun p => p.2)

def hdrSet (h : Headers) (k v : String) : Headers :=
  if h.any (fun p => p.1 == k) then h.map (fun p => if p.1 == k then (k, v) else p)
  else h ++ [(k, v)]

def hdrDel (h : Headers) (k : String) : Headers :=
  h.filter (fun p => !(p.1 == k))

def hdrHas (h : Headers) (k : String) : Bool :=
  h.any (fun p => p.1 == k)

/-- Python `s.split(sep, 1)`: `none` when the separator is absent (the
callers unpack two values, so that case raises `ValueError`). -/
def splitFirst (sep : Char) : List Char → Option (List Char × List Char)
  | [] => none
  | c :: cs =>
    if c = sep then some ([], cs)
    else match splitFirst sep cs with
      | none => none
      | some (a, b) => some (c :: a, b)

def pyLower (s : String) : String := String.mk (s.toList.map Char.toLower)

def stripQuotes (s : String) : String :=
  String.mk (s.toList.filter (fun c => !(c == '"')))

/-- `www_auth` (docker_pull.py lines 30-41): the auth scheme (lowercased)
and the `k=v` items with values lowercased and dequoted; keys are kept
verbatim.  A failed unpack is `ValueError`. -/
def www_auth (hdr : String) : Except Unit (String × List (String × String)) :=
  match splitFirst ' ' hdr.toList with
  | none => .error ()
  | some (authType, info) =>
    match (splitOnChar ',' info).mapM (fun part =>
        match splitFirst '=' part with
        | none => Except.error ()
        | some (k, v) => Except.ok (String.mk k, pyLower (stripQuotes (String.mk v)))) with
    | .error e => .error e
    | .ok items => .ok (pyLower (String.mk authType), items)

/-- Python dict lookup over assignment-ordered `k=v` items: the last
assignment to a key wins. -/
def lookupLast (items : List (String × String)) (k : String) : Option String :=
  (items.reverse.find? (fun p => p.1 == k)).map (fun p => p.2)

structure UrlParts where
  scheme : String
  netloc : String
  path : String
  params : String
  query : String
  fragment : String

def splitFirstOrAll (sep : Char) (s : List Char) : List Char × Option (List Char) :=
  match splitFirst sep s with
  | none => (s, none)
  | some (a, b) => (a, some b)

/-- Model of `urllib.parse.urlparse` for the URLs this client meets:
`scheme://netloc/path[?query][#fragment]`, no `;params` in the last path
segment, scheme before the first `:`. -/
def pyUrlparse (url : String) : UrlParts :=
  let l := url.toList
  let (beforeFrag, frag) := splitFirstOrAll '#' l
  let (beforeQuery, q) := splitFirstOrAll '?' beforeFrag
  match splitFirst ':' beforeQuery with
  | some (sch, rest) =>
    if rest.take 2 = ['/', '/'] then
      let afterSlashes := rest.drop 2
      let (netloc, pathRest) :=
        match splitFirst '/' afterSlashes with
        | none => (afterSlashes, [])
        | some (n, p) => (n, '/' :: p)
      { scheme := String.mk sch, netloc := String.mk netloc, path := String.mk pathRest,
        params := "", query := String.mk (q.getD []), fragment := String.mk (frag.getD []) }
    else
      { scheme := String.mk sch, netloc := "", path := String.mk rest,
        params := "", query := String.mk (q.getD []), fragment := String.mk (frag.getD []) }
  | none =>
      { scheme := "", netloc := "", path := String.mk beforeQuery,
        params := "", query := String.mk (q.getD []), fragment := String.mk (frag.getD []) }

/-- Model of `urllib.parse.urlunparse` on the same URL class. -/
def pyUrlunparse (u : UrlParts) : String :=
  let base := (if u.scheme ≠ "" then u.scheme ++ ":" else "") ++
    (if u.netloc ≠ "" then "//" ++ u.netloc else "") ++ u.path
  let base := if u.params ≠ "" then base ++ ";" ++ u.params else base
  let base := if u.query ≠ "" then base ++ "?" ++ u.query else base
  if u.fragment ≠ "" then base ++ "#" ++ u.fragment else base

def hexVal (c : Char) : Option Nat :=
  if '0' ≤ c ∧ c ≤ '9' then some (c.toNat - 48)
  else if 'a' ≤ c ∧ c ≤ 'f' then some (c.toNat - 87)
  else if 'A' ≤ c ∧ c ≤ 'F' then some (c.toNat - 55)
  else none

/-- `urllib.parse.unquote_plus` on ASCII data: `+` → space, `%XX` decoded. -/
def unquotePlusL : List Char → List Char
  | [] => []
  | '+' :: cs => ' ' :: unquotePlusL cs
  | '%' :: c1 :: c2 :: cs =>
    match hexVal c1, hexVal c2 with
    | some h1, some h2 => Char.ofNat (16 * h1 + h2) :: unquotePlusL cs
    | _, _ => '%' :: unquotePlusL (c1 :: c2 :: cs)
  | c :: cs => c :: unquotePlusL cs

def unquotePlus (s : String) : String := String.mk (unquotePlusL s.toList)

def qsAdd (acc : List (String × List String)) (k v : String) :
    List (String × List String) :=
  if acc.any (fun p => p.1 == k) then
    acc.map (fun p => if p.1 == k then (p.1, p.2 ++ [v]) else p)
  else acc ++ [(k, [v])]

/-- Model of `urllib.parse.parse_qs` with default arguments: split on `&`,
drop empty chunks, chunks without `=` and blank values, percent-decode, and
collect repeated names in first-seen order. -/
def parse_qs (query : List Char) : List (String × List String) :=
  (splitOnChar '&' query).foldl (fun acc nv =>
    if nv.isEmpty then acc
    else match splitFirst '=' nv with
      | none => acc
      | some (n, v) =>
        if v.isEmpty then acc
        else qsAdd acc (unquotePlus (String.mk n)) (unquotePlus (String.mk v))) []

def hexDigitU (n : Nat) : Char :=
  if n < 10 then Char.ofNat (48 + n) else Char.ofNat (65 + (n - 10))

/-- `urllib.parse.quote_plus` on ASCII data: space → `+`, alphanumerics and
`_.-~` kept, the rest percent-encoded with uppercase hex. -/
def quotePlusChar (c : Char) : List Char :=
  if c = ' ' then ['+']
  else if ('a' ≤ c ∧ c ≤ 'z') ∨ ('A' ≤ c ∧ c ≤ 'Z') ∨ ('0' ≤ c ∧ c ≤ '9')
      ∨ c = '_' ∨ c = '.' ∨ c = '-' ∨ c = '~' then [c]
  else ['%', hexDigitU (c.toNat / 16 % 16), hexDigitU (c.toNat % 16)]

def quotePlus (s : String) : String := String.mk (s.toList.flatMap quotePlusChar)

/-- Query dict values: `parse_qs` yields lists, `dict.update(k=str)` plain
strings; `urlencode(..., doseq=True)` treats them differently. -/
inductive QVal where
  | str (s : String)
  | list (vs : List String)

def qdictSet (q : List (String × QVal)) (k : String) (v : QVal) :
    List (String × QVal) :=
  if q.any (fun p => p.1 == k) then q.map (fun p => if p.1 == k then (k, v) else p)
  else q ++ [(k, v)]

/-- `urllib.parse.urlencode(query, True)`. -/
def urlencodeDoseq (q : List (String × QVal)) : String :=
  String.intercalate "&" (q.flatMap (fun p =>
    match p.2 with
    | .str s => [quotePlus p.1 ++ "=" ++ quotePlus s]
    | .list vs => vs.map (fun v => quotePlus p.1 ++ "=" ++ quotePlus v)))

/-- The token URL built by `_auth` (lines 358-365): the parsed realm with
its query replaced by the merge of its own query, `service`, and the
optional `scope`. -/
def tokenUrlOf (realm svc : String) (scope : Option String) : String :=
  let parts := pyUrlparse realm
  let q := (parse_qs parts.query.toList).map (fun p => (p.1, QVal.list p.2))
  let q := qdictSet q "service" (.str svc)
  let q := match scope with
    | some sc => qdictSet q "scope" (.str sc)
    | none => q
  pyUrlunparse { parts with query := urlencodeDoseq q }

/-- The session headers after the credential step of `_auth` (lines
349-354): a truthy `Authorization` is deleted, then, when a (truthy) user
is configured, `Authorization` is set to `b64(user:password)` — note the
source omits the `Basic ` scheme prefix. -/
def basicHeaders (b64 : String → String) (user password : Option String)
    (h : Headers) : Headers :=
  let h := if (hdrGet h "Authorization").getD "" ≠ "" then hdrDel h "Authorization" else h
  match user with
  | some u =>
    if u ≠ "" then hdrSet h "Authorization" (b64 (u ++ ":" ++ password.getD "None")) else h
  | none => h

inductive PyErr where
  | keyError
  | valueError
  | httpError
  | fileNotFound
  | attributeError
  | badGzip
deriving DecidableEq

structure AuthOut where
  result : Except PyErr Unit
  headers : Headers
  log : ReqLog

/-- `ImageFetcher._auth` (lines 348-370). -/
def authStep (b64 : String → String) (user password : Option String) (net : Net)
    (resp : HttpResp) (h : Headers) : AuthOut :=
  let h := basicHeaders b64 user password h
  if (resp.wwwAuthenticate.getD "") = "" then ⟨.ok (), h, []⟩
  else
    match www_auth (resp.wwwAuthenticate.getD "") with
    | .error _ => ⟨.error .valueError, h, []⟩
    | .ok (authType, items) =>
      if authType ≠ "bearer" then ⟨.error .keyError, h, []⟩
      else match lookupLast items "realm" with
      | none => ⟨.error .keyError, h, []⟩
      | some realm =>
        match lookupLast items "service" with
        | none => ⟨.error .keyError, h, []⟩
        | some svc =>
          let tokenUrl := tokenUrlOf realm svc (lookupLast items "scope")
          let r := net "GET" tokenUrl h
          if 400 ≤ r.status ∧ r.status < 600 then
            ⟨.error .httpError, h, [("GET", tokenUrl, h)]⟩
          else
            ⟨.ok (), hdrSet h "Authorization" ("Bearer " ++ r.token),
              [("GET", tokenUrl, h)]⟩

structure ReqOut where
  result : Except PyErr (Option HttpResp)
  headers : Headers
  log : ReqLog

def acceptedStatus (s : Nat) : Bool :=
  s == 200 || s == 201 || s == 202 || s == 204 || s == 416

def reqFinish (r : HttpResp) (h : Headers) (l : ReqLog) : ReqOut :=
  if acceptedStatus r.status then ⟨.ok (some r), h, l⟩
  else if 400 ≤ r.status ∧ r.status < 600 then ⟨.error .httpError, h, l⟩
  else ⟨.ok none, h, l⟩

/-- `ImageFetcher._req` (lines 372-385): issue the request; on 401 run
`_auth` and retry exactly once; then accept 200/201/202/204/416, raise on
other 4xx/5xx, and fall through returning `None` otherwise. -/
def reqStep (b64 : String → String) (user password : Option String) (net : Net)
    (method url : String) (h : Headers) : ReqOut :=
  let r := net method url h
  let l0 : ReqLog := [(method, url, h)]
  if r.status = 401 then
    let a := authStep b64 user password net r h
    match a.result with
    | .error e => ⟨.error e, a.headers, l0 ++ a.log⟩
    | .ok _ =>
      let r2 := net method url a.headers
      reqFinish r2 a.headers (l0 ++ a.log ++ [(method, url, a.headers)])
  else reqFinish r h l0

def GZIP_ACCEPT : String := "application/vnd.docker.image.rootfs.diff.tar.gzip"

/-- `urljoin(base, rel)` for the relative paths this client uses: replace
everything after the last `/` of the base with `rel`. -/
def pyUrljoin (base rel : String) : String :=
  let l := base.toList
  let keep := l.length - (l.reverse.takeWhile (fun c => !(c == '/'))).length
  String.mk (l.take keep) ++ rel

/-- `ImageFetcher.get_blob` (lines 398-401). -/
def getBlob (b64 : String → String) (user password : Option String) (net : Net)
    (url tag : String) (stream : Bool) (h : Headers) : ReqOut :=
  let h := if stream then hdrSet h "Accept" GZIP_ACCEPT else h
  reqStep b64 user password net "GET" (pyUrljoin url ("blobs/" ++ tag)) h

/-! ### `ImageFetcher._get_layer` (docker_pull.py lines 472-524)

The filesystem is an ordered name → bytes map.  `Hf` abstracts `sha256sum`
(hex digest of a file's bytes), `gunzip` abstracts `gzip.open` together
with the ISIZE probe and full read, `none` standing for a gzip failure.
Partial decompression output on a gzip failure is not modelled (nothing
here depends on it). -/

abbrev Fs := List (String × List Nat)

def fsGet (fs : Fs) (k : String) : Option (List Nat) :=
  (fs.find? (fun p => p.1 == k)).map (fun p => p.2)

def fsSet (fs : Fs) (k : String) (v : List Nat) : Fs :=
  if fs.any (fun p => p.1 == k) then fs.map (fun p => if p.1 == k then (k, v) else p)
  else fs ++ [(k, v)]

def fsDel (fs : Fs) (k : String) : Fs :=
  fs.filter (fun p => !(p.1 == k))

structure LayerOut where
  result : Except PyErr Unit
  headers : Headers
  fs : Fs
  log : ReqLog

/-- The `.gz` contents after the download loop (lines 493-502): absent on
a 416 response, else truncated or appended with the streamed body. -/
def downloadFs (appendMode : Bool) (r : HttpResp) (fs : Fs) (gzipedFile : String) : Fs :=
  if r.status ≠ 416 then
    fsSet fs gzipedFile ((if appendMode then (fsGet fs gzipedFile).getD [] else []) ++ r.body)
  else fs

/-- Lines 504-505: delete `Range` from the session when present. -/
def clearRange (h : Headers) : Headers :=
  if hdrHas h "Range" then hdrDel h "Range" else h

/-- The part of `_get_layer` from the streaming blob GET on (lines
488-524): download into the `.gz` (truncate or append), clear `Range`,
decompress into the target, remove the `.gz`. -/
def getLayerDownload (b64 : String → String) (user password : Option String)
    (gunzip : List Nat → Option (List Nat)) (net : Net)
    (url layerDigest outputFile : String) (appendMode : Bool)
    (h : Headers) (fs : Fs) : LayerOut :=
  let gzipedFile := outputFile ++ ".gz"
  let blob := getBlob b64 user password net url layerDigest true h
  match blob.result with
  | .error e => ⟨.error e, blob.headers, fs, blob.log⟩
  | .ok none => ⟨.error .attributeError, blob.headers, fs, blob.log⟩
  | .ok (some r) =>
    let fs2 := downloadFs appendMode r fs gzipedFile
    let h2 := clearRange blob.headers
    match fsGet fs2 gzipedFile with
    | none => ⟨.error .fileNotFound, h2, fs2, blob.log⟩
    | some gzData =>
      match gunzip gzData with
      | none => ⟨.error .badGzip, h2, fs2, blob.log⟩
      | some unzipped =>
        ⟨.ok (), h2, fsDel (fsSet fs2 outputFile unzipped) gzipedFile, blob.log⟩

/-- `ImageFetcher._get_layer` (lines 472-524): skip a complete valid
`layer.tar`; otherwise resume from the size of the companion `.gz`
(`FileNotFoundError` when it is missing, since `os.path.getsize` is
evaluated unconditionally) or download afresh. -/
def getLayer (b64 : String → String) (user password : Option String)
    (Hf : List Nat → String) (gunzip : List Nat → Option (List Nat)) (net : Net)
    (url layerDigest diffId outputFile : String) (h : Headers) (fs : Fs) : LayerOut :=
  let gzipedFile := outputFile ++ ".gz"
  match fsGet fs outputFile with
  | some content =>
    if Hf content ≠ diffId.drop 7 then
      match fsGet fs gzipedFile with
      | none => ⟨.error .fileNotFound, h, fs, []⟩
      | some gzContent =>
        let h := hdrSet h "Range" ("bytes=" ++ toString gzContent.length ++ "-")
        getLayerDownload b64 user password gunzip net url layerDigest outputFile true h fs
    else ⟨.ok (), h, fs, []⟩
  | none => getLayerDownload b64 user password gunzip net url layerDigest outputFile false h fs

/-- Concrete oracles for the auth-loop witness. -/
def exHdr : String :=
  "Bearer realm=\"https://auth.example/token\",service=\"reg\",scope=\"repository:x:pull\""

/-- A concrete registry for the auth-loop witness: the token endpoint
returns a token, bearer-authenticated requests succeed, everything else is
challenged with 401. -/
def exNet : Net := fun _ u hs =>
  if u = "https://auth.example/token?service=reg&scope=repository%3Ax%3Apull" then
    ⟨200, none, "T", []⟩
  else if (hdrGet hs "Authorization").getD "" = "Bearer T" then ⟨200, none, "", []⟩
  else ⟨401, some exHdr, "", []⟩

/-! ### Deterministic tar writer (docker_pull.py lines 198-331)

The staging tree is a list of named nodes carrying the stat metadata the
writer reads (`mode`, `uid`, `gid`, `mtime`).  `TarFile.add` sorts each
directory listing, normalizes times with `os.utime` (0 for files named
`manifest.json`/`repositories`, the `created` timestamp otherwise, so the
original mtime never reaches the header), builds a `TarInfo` whose
`uid`/`gid` are overwritten with the archiver's `owner`/`group` (0 in
`pull`) and whose `uname`/`gname` are blanked (`numeric_owner=True`), and
recurses depth-first.  The model fixes the non-Windows, non-macOS platform
(the macOS branch substitutes `root` unames; the Windows branch only skips
the ctime `touch`, which never reaches the archive bytes).  `created` is
the parsed `image_config.created` as an integral UNIX timestamp
(`tarfile.itn` truncates to `int`).  Arcnames reproduce
`os.path.relpath(file_path, arcname)` under the source's recursion, which
passes the current directory (not the root) as `arcname`: a child of the
staging root is archived under its own name, a child of any deeper
directory under `basename(parent)/name`.  Member names are assumed to fit
the 100-byte USTAR name field (true of the staging layout), so no prefix
splitting is modelled, and names are ASCII. -/

structure FileMeta where
  mode : Nat
  uid : Nat
  gid : Nat
  mtime : Nat
deriving DecidableEq

inductive FsNode where
  | file (name : String) (content : List Nat) (meta : FileMeta)
  | dir (name : String) (meta : FileMeta) (children : List FsNode)

def nodeName : FsNode → String
  | .file n _ _ => n
  | .dir n _ _ => n

mutual

/-- Same staging contents: equal names, file data and permission bits,
with arbitrary `uid`/`gid`/`mtime` metadata. -/
def sameContents : FsNode → FsNode → Bool
  | .file n1 c1 m1, .file n2 c2 m2 => n1 == n2 && c1 == c2 && m1.mode == m2.mode
  | .dir n1 m1 cs1, .dir n2 m2 cs2 => n1 == n2 && m1.mode == m2.mode && sameList cs1 cs2
  | _, _ => false

def sameList : List FsNode → List FsNode → Bool
  | [], [] => true
  | a :: as, b :: bs => sameContents a b && sameList as bs
  | _, _ => false

end

def nodeNameLe (a b : FsNode) : Bool := decide (nodeName a ≤ nodeName b)

def insertByB {α : Type} (le : α → α → Bool) (x : α) : List α → List α
  | [] => [x]
  | y :: ys => if le x y then x :: y :: ys else y :: insertByB le x ys

/-- Stable insertion sort; on the duplicate-free name lists a directory
listing yields it agrees with Python `sorted`. -/
def sortByB {α : Type} (le : α → α → Bool) (l : List α) : List α :=
  l.foldr (insertByB le) []

/-- One tar member as assembled by `add`/`gettarinfo` after normalization.
`srcName` records the on-disk basename that drove the mtime decision; it
does not reach the encoded bytes. -/
structure TarEntry where
  name : String
  srcName : String
  isDir : Bool
  mode : Nat
  uid : Nat
  gid : Nat
  mtime : Nat
  uname : String
  gname : String
  content : List Nat
deriving DecidableEq

def MANIFEST_NAMES : List String := ["manifest.json", "repositories"]

/-- Lines 282-296: `os.utime` writes `(0, 0)` for `manifest.json` and
`repositories` (any depth — the check is on the basename), else the
`created` timestamp; `gettarinfo` then reads that mtime back. -/
def entryMtime (srcName : String) (created : Nat) : Nat :=
  if srcName ∈ MANIFEST_NAMES then 0 else created

/-- Depth-first member emission for one node whose arcname is `arc`. -/
def entriesOfNode (created : Nat) (arc : String) (n : FsNode) : List TarEntry :=
  match n with
  | .file nm content m =>
    [⟨arc, nm, false, m.mode, 0, 0, entryMtime nm created, "", "", content⟩]
  | .dir nm m cs =>
    ⟨arc, nm, true, m.mode, 0, 0, entryMtime nm created, "", "", []⟩ ::
      (sortByB (fun a b => nodeNameLe a.1 b.1) cs.attach).flatMap
        (fun c => entriesOfNode created (nm ++ "/" ++ nodeName c.1) c.1)
  termination_by sizeOf n
  decreasing_by
    have := List.sizeOf_lt_of_mem c.2
    simp only [FsNode.dir.sizeOf_spec]
    omega

/-- The member list of `TarFile.add(tmp_dir, created=…)` over the staging
root listing. -/
def tarEntries (created : Nat) (cs : List FsNode) : List TarEntry :=
  (sortByB nodeNameLe cs).flatMap
    (fun c => entriesOfNode created (nodeName c) c)

def strBytes (s : String) : List Nat := s.toList.map Char.toNat

/-- `tarfile.stn`: encode, truncate, NUL-pad. -/
def stn (s : String) (len : Nat) : List Nat :=
  let b := (strBytes s).take len
  b ++ List.replicate (len - b.length) 0

def octalStr (n : Nat) : List Nat := (Nat.toDigits 8 n).map Char.toNat

/-- `tarfile.itn` for USTAR: zero-padded octal of width `digits - 1`
followed by NUL (values are assumed in range, as the staging tree's are). -/
def itn (n : Nat) (digits : Nat) : List Nat :=
  let o := octalStr n
  List.replicate (digits - 1 - o.length) 48 ++ o ++ [0]

def TYPE_REG : Nat := 48
def TYPE_DIR : Nat := 53
def POSIX_MAGIC : List Nat := [117, 115, 116, 97, 114, 0, 48, 48]

/-- `TarExporter.get_info` appends `/` to directory names. -/
def entryName (e : TarEntry) : String := if e.isDir then e.name ++ "/" else e.name

/-- The 512-byte block of `TarExporter._create_header` before the checksum
rewrite: the packed fields with the checksum field holding spaces, padded
by `struct.pack("512s", …)`. -/
def headerBase (e : TarEntry) : List Nat :=
  stn (entryName e) 100 ++
  itn e.mode 8 ++
  itn e.uid 8 ++
  itn e.gid 8 ++
  itn e.content.length 12 ++
  itn e.mtime 12 ++
  List.replicate 8 32 ++
  [if e.isDir then TYPE_DIR else TYPE_REG] ++
  stn "" 100 ++
  POSIX_MAGIC ++
  stn e.uname 32 ++
  stn e.gname 32 ++
  itn 0 8 ++
  itn 0 8 ++
  stn "" 155 ++
  List.replicate 12 0

/-- Header with the checksum patched in (`"%06o\0"` at offsets 148-154),
followed by the member data padded to a 512-byte block. -/
def encodeEntry (e : TarEntry) : List Nat :=
  let hdr0 := headerBase e
  let c := hdr0.sum
  let hdr := hdr0.take 148 ++
    (List.replicate (6 - (octalStr c).length) 48 ++ octalStr c ++ [0]) ++ hdr0.drop 155
  hdr ++ e.content ++ List.replicate ((512 - e.content.length % 512) % 512) 0

/-- The archive bytes of a successful `add` + `close`: all members followed
by the two zero end-of-archive blocks (`RECORDSIZE` is set to 512, so no
further record padding is emitted). -/
def archiveBytes (created : Nat) (cs : List FsNode) : List Nat :=
  (tarEntries created cs).flatMap encodeEntry ++ List.replicate 1024 0

structure TarState where
  output : List Nat
  fileobjClosed : Bool
  closed : Bool
  removedDirs : List String
deriving DecidableEq

/-- `TarFile.__exit__` (docker_pull.py lines 319-331) together with
`tarfile.TarFile.close` on a still-open writer: with no pending exception,
`close()` writes the two zero end-of-archive blocks (`RECORDSIZE = 512`
adds no further padding) and then, when `remove_src_dir` is set, the
recorded staging roots are deleted; with a pending exception the file
object is closed without emitting end-of-archive blocks and nothing is
deleted. -/
def tarExit (excType : Option PyErr) (removeSrcDir : Bool)
    (addedPaths : List String) (st : TarState) : TarState :=
  let st :=
    match excType with
    | none =>
      { st with output := st.output ++ List.replicate 1024 0,
                fileobjClosed := true, closed := true }
    | some _ =>
      { st with fileobjClosed := true, closed := true }
  if removeSrcDir ∧ excType = none then
    { st with removedDirs := st.removedDirs ++ addedPaths }
  else st

/-! ## Theorems -/

theorem splitOnChar_ne_nil (sep : Char) (l : List Char) : splitOnChar sep l ≠ [] := by
  cases l with
  | nil => simp [splitOnChar]
  | cons c cs =>
    simp only [splitOnChar]
    split
    · simp
    · split <;> simp

/-- Every piece produced by `splitOnChar` is free of the separator. -/
theorem splitOnChar_not_contains (sep : Char) :
    ∀ (l : List Char) (p : List Char), p ∈ splitOnChar sep l → sep ∉ p := by
  intro l
  induction l with
  | nil => intro p hp; simp [splitOnChar] at hp; simp [hp]
  | cons c cs ih =>
    intro p hp
    simp only [splitOnChar] at hp
    by_cases hc : c = sep
    · rw [if_pos hc] at hp
      rcases List.mem_cons.mp hp with h | h
      · subst h; simp
      · exact ih p h
    · rw [if_neg hc] at hp
      rcases hsp : splitOnChar sep cs with _ | ⟨q, qs⟩
      · exact absurd hsp (splitOnChar_ne_nil sep cs)
      · rw [hsp] at hp
        rcases List.mem_cons.mp hp with h | h
        · subst h
          intro hmem
          rcases List.mem_cons.mp hmem with h | h
          · exact hc h.symm
          · exact ih q (hsp ▸ List.mem_cons_self q qs) h
        · exact ih p (hsp ▸ List.mem_cons_of_mem q h)

/-- Splitting distributes over an explicit separator occurrence. -/
theorem splitOnChar_append (sep : Char) (a b : List Char) :
    splitOnChar sep (a ++ sep :: b) = splitOnChar sep a ++ splitOnChar sep b := by
  induction a with
  | nil => simp [splitOnChar]
  | cons c cs ih =>
    by_cases hc : c = sep
    · simp only [List.cons_append, splitOnChar, if_pos hc, List.append_eq]
      rw [ih]
    · simp only [List.cons_append, splitOnChar, if_neg hc, List.append_eq]
      rw [ih]
      rcases h : splitOnChar sep cs with _ | ⟨p, ps⟩
      · exact absurd h (splitOnChar_ne_nil sep cs)
      · simp [h]

/-- A separator-free string splits to the singleton piece. -/
theorem splitOnChar_eq_self (sep : Char) (l : List Char) (h : sep ∉ l) :
    splitOnChar sep l = [l] := by
  induction l with
  | nil => simp [splitOnChar]
  | cons c cs ih =>
    simp only [List.mem_cons, not_or] at h
    have h1 : ¬ c = sep := fun hc => h.1 hc.symm
    simp only [splitOnChar, if_neg h1, ih h.2]

/-- `splitOnChar` is a left inverse of `joinChar` on separator-free pieces. -/
theorem splitOnChar_joinChar (sep : Char) :
    ∀ (ps : List (List Char)), ps ≠ [] → (∀ p ∈ ps, sep ∉ p) →
      splitOnChar sep (joinChar sep ps) = ps := by
  intro ps
  induction ps with
  | nil => intro h; exact absurd rfl h
  | cons p ps ih =>
    intro _ hfree
    cases ps with
    | nil => simp [joinChar, splitOnChar_eq_self sep p (hfree p (by simp))]
    | cons q qs =>
      have : joinChar sep (p :: q :: qs) = p ++ sep :: joinChar sep (q :: qs) := rfl
      rw [this, splitOnChar_append,
        splitOnChar_eq_self sep p (hfree p (by simp)),
        ih (by simp) (fun r hr => hfree r (List.mem_cons_of_mem p hr))]
      simp

theorem chain_ids_length (H : String → String) :
    ∀ l : List String, (chain_ids H l).length = l.length
  | [] => by simp [chain_ids]
  | [x] => by simp [chain_ids]
  | x :: y :: rest => by
    have ih := chain_ids_length H (("sha256:" ++ H (x ++ " " ++ y)) :: rest)
    simp [chain_ids, ih]
  termination_by l => l.length

theorem chain_ids_head (H : String → String) (z : String) (zs : List String) :
    (chain_ids H (z :: zs)).headD "" = z := by
  cases zs <;> simp [chain_ids]

theorem chain_ids_step (H : String → String) :
    ∀ (l : List String) (i : Nat), 1 ≤ i → i < l.length →
      (chain_ids H l).getD i "" =
        "sha256:" ++ H ((chain_ids H l).getD (i - 1) "" ++ " " ++ l.getD i "")
  | [], i, h1, hlt => by simp at hlt
  | [x], i, h1, hlt => by simp at hlt; omega
  | x :: y :: rest, i, h1, hlt => by
    match i, h1 with
    | 1, _ =>
      have hh := chain_ids_head H ("sha256:" ++ H (x ++ " " ++ y)) rest
      simp only [chain_ids, List.getD_cons_succ, List.getD_cons_zero]
      rcases hcs : chain_ids H (("sha256:" ++ H (x ++ " " ++ y)) :: rest) with _ | ⟨c, cs⟩
      · exact absurd (congrArg List.length hcs)
          (by simp [chain_ids_length])
      · rw [hcs] at hh
        simpa using hh
    | (j + 2), _ =>
      have hlen : j + 1 < (("sha256:" ++ H (x ++ " " ++ y)) :: rest).length := by
        simp at hlt ⊢; omega
      have ih := chain_ids_step H (("sha256:" ++ H (x ++ " " ++ y)) :: rest)
        (j + 1) (by omega) hlen
      simp only [chain_ids, List.getD_cons_succ]
      simpa using ih
  termination_by l => l.length

/-- Claim C1: for nonempty `diffs`, `chain_ids diffs` has the same length as
`diffs`, starts with `diffs[0]`, and satisfies the hash-chain recurrence
`chain[i] = "sha256:" ++ H (chain[i-1] ++ " " ++ diffs[i])` for `i ≥ 1`. -/
theorem chain_ids_correct (H : String → String) (ids : List String) (hne : ids ≠ []) :
    (chain_ids H ids).length = ids.length ∧
    (chain_ids H ids).headD "" = ids.headD "" ∧
    ∀ i, 1 ≤ i → i < ids.length →
      (chain_ids H ids).getD i "" =
        "sha256:" ++ H ((chain_ids H ids).getD (i - 1) "" ++ " " ++ ids.getD i "") := by
  refine ⟨chain_ids_length H ids, ?_, fun i h1 hlt => chain_ids_step H ids i h1 hlt⟩
  cases ids with
  | nil => exact absurd rfl hne
  | cons z zs =>
    have hh := chain_ids_head H z zs
    simpa using hh

theorem chain_ids_correct_witness :
    (["sha256:aa", "sha256:bb", "sha256:cc"] : List String) ≠ [] ∧
      (chain_ids (fun s => s) ["sha256:aa", "sha256:bb", "sha256:cc"]).length = 3 := by
  refine ⟨by decide, ?_⟩
  have h := chain_ids_correct (fun s => s) ["sha256:aa", "sha256:bb", "sha256:cc"]
    (by decide)
  simpa using h.1

/-- Characters of a piece of a split all occur in the original string. -/
theorem splitOnChar_subset (sep : Char) :
    ∀ (l : List Char) (p : List Char), p ∈ splitOnChar sep l → ∀ x ∈ p, x ∈ l := by
  intro l
  induction l with
  | nil =>
    intro p hp
    simp [splitOnChar] at hp
    simp [hp]
  | cons c cs ih =>
    intro p hp x hx
    simp only [splitOnChar] at hp
    by_cases hc : c = sep
    · rw [if_pos hc] at hp
      rcases List.mem_cons.mp hp with h | h
      · subst h; simp at hx
      · exact List.mem_cons_of_mem c (ih p h x hx)
    · rw [if_neg hc] at hp
      rcases hsp : splitOnChar sep cs with _ | ⟨q, qs⟩
      · exact absurd hsp (splitOnChar_ne_nil sep cs)
      · rw [hsp] at hp
        rcases List.mem_cons.mp hp with h | h
        · subst h
          rcases List.mem_cons.mp hx with h | h
          · simp [h]
          · exact List.mem_cons_of_mem c
              (ih q (hsp ▸ List.mem_cons_self q qs) x h)
        · exact List.mem_cons_of_mem c (ih p (hsp ▸ List.mem_cons_of_mem q h) x hx)

theorem getLastD_mem_of_ne_nil {α : Type} (d : α) :
    ∀ (l : List α), l ≠ [] → l.getLastD d ∈ l := by
  intro l
  induction l with
  | nil => intro h; exact absurd rfl h
  | cons c cs ih =>
    intro _
    cases hcs : cs with
    | nil => simp
    | cons q qs =>
      have := ih (by simp [hcs])
      rw [hcs] at this
      simpa using List.mem_cons_of_mem c this

theorem headD_mem_of_ne_nil {α : Type} (d : α) (l : List α) (h : l ≠ []) :
    l.headD d ∈ l := by
  cases l with
  | nil => exact absurd rfl h
  | cons c cs => simp

/-- Appending to the last piece before joining is appending after joining. -/
theorem joinChar_extend_last (sep : Char) :
    ∀ (xs : List (List Char)) (y z : List Char),
      joinChar sep (xs ++ [y]) ++ z = joinChar sep (xs ++ [y ++ z]) := by
  intro xs
  induction xs with
  | nil => intro y z; simp [joinChar]
  | cons x xs ih =>
    intro y z
    have h1 : joinChar sep ((x :: xs) ++ [y]) = x ++ sep :: joinChar sep (xs ++ [y]) := by
      cases xs <;> rfl
    have h2 : joinChar sep ((x :: xs) ++ [y ++ z]) =
        x ++ sep :: joinChar sep (xs ++ [y ++ z]) := by
      cases xs <;> rfl
    rw [h1, h2, List.append_assoc, List.cons_append, ih]

theorem contains_eq_false_iff (l : List Char) (c : Char) :
    l.contains c = false ↔ c ∉ l := by
  simp [List.contains]

/-- Claim C5: the reference parser maps `alpine` and `ghcr.io/acme/app:v1`
to the documented triples; in general the last slash-segment is split on
`@` if present else on `:`, the left side is appended to the namespace
pieces, an absent right side yields the tag `latest`, and more than two
parts fail with the invalid-reference error. -/
theorem parser_correct :
    parserS "alpine" = .ok ("registry-1.docker.io", "library/alpine", "latest") ∧
    parserS "ghcr.io/acme/app:v1" = .ok ("ghcr.io", "acme/app", "v1") ∧
    ∀ image : List Char, ∃ registry nsPre,
      ((nameTagOf image).length = 1 →
        parser image = .ok (registry,
          joinChar '/' (nsPre ++ [(nameTagOf image).headD []]), "latest".toList)) ∧
      ((nameTagOf image).length = 2 →
        parser image = .ok (registry,
          joinChar '/' (nsPre ++ [(nameTagOf image).headD []]),
          (nameTagOf image).getD 1 [])) ∧
      (¬ (lastSegOf image).contains '@' = true →
        2 < (splitOnChar ':' (lastSegOf image)).length →
        parser image = .error ("Image format name ".toList ++ image ++ " is invalid".toList)) := by
  refine ⟨by rfl, by rfl, ?_⟩
  intro image
  refine ⟨(if (splitOnChar '/' image).length = 1 then DOCKER_REGISTRY_HOST
    else if ((splitOnChar '/' image).headD []).contains '.'
        || ((splitOnChar '/' image).headD []).contains ':' then (splitOnChar '/' image).headD []
    else DOCKER_REGISTRY_HOST),
    (if (splitOnChar '/' image).length = 1 then ["library".toList]
     else if ((splitOnChar '/' image).headD []).contains '.'
        || ((splitOnChar '/' image).headD []).contains ':' then ((splitOnChar '/' image).drop 1).dropLast
     else (splitOnChar '/' image).dropLast), ?_, ?_, ?_⟩
  · intro h1
    rcases hnt : nameTagOf image with _ | ⟨a, _ | ⟨b, rest⟩⟩
    · rw [hnt] at h1; simp at h1
    · dsimp only [nameTagOf, lastSegOf] at hnt
      dsimp only [parser]
      rw [hnt]
    · rw [hnt] at h1; simp at h1
  · intro h2
    rcases hnt : nameTagOf image with _ | ⟨a, _ | ⟨b, _ | rest⟩⟩
    · rw [hnt] at h2; simp at h2
    · rw [hnt] at h2; simp at h2
    · dsimp only [nameTagOf, lastSegOf] at hnt
      dsimp only [parser]
      rw [hnt]
      simp
    · rw [hnt] at h2; simp at h2
  · intro hat h3
    have hnt' : nameTagOf image = splitOnChar ':' (lastSegOf image) := by
      unfold nameTagOf
      rw [if_neg hat]
    rcases hnt : nameTagOf image with _ | ⟨a, _ | ⟨b, _ | rest⟩⟩
    · exact absurd (hnt'.symm.trans hnt) (splitOnChar_ne_nil ':' (lastSegOf image))
    · rw [hnt] at hnt'; rw [← hnt'] at h3; simp at h3
    · rw [hnt] at hnt'; rw [← hnt'] at h3; simp at h3
    · dsimp only [nameTagOf, lastSegOf] at hnt
      dsimp only [parser]
      rw [hnt]

theorem parser_correct_witness :
    ¬ (lastSegOf "host/a:1:2".toList).contains '@' = true ∧
    2 < (splitOnChar ':' (lastSegOf "host/a:1:2".toList)).length ∧
    parser "host/a:1:2".toList =
      .error ("Image format name ".toList ++ "host/a:1:2".toList ++ " is invalid".toList) := by
  obtain ⟨reg, nsPre, h1, h2, h3⟩ := parser_correct.2.2 "host/a:1:2".toList
  exact ⟨by decide, by decide, h3 (by decide) (by decide)⟩

theorem parser_ok_inv (image reg ns tag : List Char)
    (h : parser image = .ok (reg, ns, tag)) :
    ∃ nsPre a,
      ns = joinChar '/' (nsPre ++ [a]) ∧
      (reg.contains '.' || reg.contains ':') = true ∧
      '/' ∉ reg ∧ (∀ p ∈ nsPre, '/' ∉ p) ∧
      '/' ∉ a ∧ '@' ∉ a ∧
      '/' ∉ tag ∧ '@' ∉ tag := by
  have hlast_mem : lastSegOf image ∈ splitOnChar '/' image :=
    getLastD_mem_of_ne_nil [] _ (splitOnChar_ne_nil '/' image)
  have hlast_noslash : '/' ∉ lastSegOf image :=
    splitOnChar_not_contains '/' image (lastSegOf image) hlast_mem
  -- facts about the name/tag pieces
  have hpiece : ∀ p ∈ nameTagOf image, '/' ∉ p ∧ '@' ∉ p := by
    intro p hp
    unfold nameTagOf at hp
    by_cases hat : (lastSegOf image).contains '@' = true
    · rw [if_pos hat] at hp
      refine ⟨fun hx => hlast_noslash (splitOnChar_subset '@' _ p hp '/' hx), ?_⟩
      exact splitOnChar_not_contains '@' _ p hp
    · rw [if_neg hat] at hp
      have hnoat : '@' ∉ lastSegOf image := by
        rw [Bool.not_eq_true] at hat
        exact (contains_eq_false_iff _ _).mp hat
      refine ⟨fun hx => hlast_noslash (splitOnChar_subset ':' _ p hp '/' hx), ?_⟩
      exact fun hx => hnoat (splitOnChar_subset ':' _ p hp '@' hx)
  have hsplit_noslash : ∀ p ∈ splitOnChar '/' image, '/' ∉ p :=
    splitOnChar_not_contains '/' image
  have hdefault : (DOCKER_REGISTRY_HOST.contains '.' || DOCKER_REGISTRY_HOST.contains ':') = true := by
    decide
  have hdefault_noslash : '/' ∉ DOCKER_REGISTRY_HOST := by decide
  have hhead_mem : (splitOnChar '/' image).headD [] ∈ splitOnChar '/' image :=
    headD_mem_of_ne_nil [] _ (splitOnChar_ne_nil '/' image)
  have hlib : ∀ p ∈ [("library".toList : List Char)], '/' ∉ p := by decide
  have hdrop : ∀ p ∈ ((splitOnChar '/' image).drop 1).dropLast, '/' ∉ p := by
    intro p hp
    exact hsplit_noslash p (List.drop_subset 1 _ (List.dropLast_subset _ hp))
  have hdropLast : ∀ p ∈ (splitOnChar '/' image).dropLast, '/' ∉ p := by
    intro p hp
    exact hsplit_noslash p (List.dropLast_subset _ hp)
  -- case on the shape of the name/tag split
  rcases hnt : nameTagOf image with _ | ⟨a, _ | ⟨t, _ | ⟨u, rest⟩⟩⟩
  all_goals (
    have hmemnt := hpiece
    dsimp only [nameTagOf, lastSegOf] at hnt
    dsimp only [parser] at h
    rw [hnt] at h)
  · simp at h
  · -- one piece: tag is "latest"
    simp only [Except.ok.injEq, Prod.mk.injEq, List.headD_cons] at h
    obtain ⟨hreg, hns, htag⟩ := h
    have hamem : a ∈ nameTagOf image := by
      have he : nameTagOf image = [a] := by
        dsimp only [nameTagOf, lastSegOf]; exact hnt
      simp [he]
    obtain ⟨haslash, haat⟩ := hmemnt a hamem
    subst htag
    subst hreg
    subst hns
    by_cases hlen : (splitOnChar '/' image).length = 1
    · refine ⟨["library".toList], a, by rw [if_pos hlen], ?_, ?_, ?_, haslash, haat, by decide, by decide⟩
      · rw [if_pos hlen]; exact hdefault
      · rw [if_pos hlen]; exact hdefault_noslash
      · exact hlib
    · by_cases hhead : (((splitOnChar '/' image).headD []).contains '.'
          || ((splitOnChar '/' image).headD []).contains ':') = true
      · refine ⟨((splitOnChar '/' image).drop 1).dropLast, a,
          by rw [if_neg hlen, if_pos hhead], ?_, ?_, ?_, haslash, haat, by decide, by decide⟩
        · rw [if_neg hlen, if_pos hhead]; exact hhead
        · rw [if_neg hlen, if_pos hhead]; exact hsplit_noslash _ hhead_mem
        · exact hdrop
      · refine ⟨(splitOnChar '/' image).dropLast, a,
          by rw [if_neg hlen, if_neg hhead], ?_, ?_, ?_, haslash, haat, by decide, by decide⟩
        · rw [if_neg hlen, if_neg hhead]; exact hdefault
        · rw [if_neg hlen, if_neg hhead]; exact hdefault_noslash
        · exact hdropLast
  · -- two pieces: explicit tag
    simp only [Except.ok.injEq, Prod.mk.injEq, List.headD_cons] at h
    obtain ⟨hreg, hns, htag⟩ := h
    have hamem : a ∈ nameTagOf image := by
      have he : nameTagOf image = [a, t] := by
        dsimp only [nameTagOf, lastSegOf]; exact hnt
      simp [he]
    have htmem : t ∈ nameTagOf image := by
      have he : nameTagOf image = [a, t] := by
        dsimp only [nameTagOf, lastSegOf]; exact hnt
      simp [he]
    obtain ⟨haslash, haat⟩ := hmemnt a hamem
    obtain ⟨htslash, htat⟩ := hmemnt t htmem
    subst htag
    subst hreg
    subst hns
    by_cases hlen : (splitOnChar '/' image).length = 1
    · refine ⟨["library".toList], a, by rw [if_pos hlen], ?_, ?_, ?_, haslash, haat, htslash, htat⟩
      · rw [if_pos hlen]; exact hdefault
      · rw [if_pos hlen]; exact hdefault_noslash
      · exact hlib
    · by_cases hhead : (((splitOnChar '/' image).headD []).contains '.'
          || ((splitOnChar '/' image).headD []).contains ':') = true
      · refine ⟨((splitOnChar '/' image).drop 1).dropLast, a,
          by rw [if_neg hlen, if_pos hhead], ?_, ?_, ?_, haslash, haat, htslash, htat⟩
        · rw [if_neg hlen, if_pos hhead]; exact hhead
        · rw [if_neg hlen, if_pos hhead]; exact hsplit_noslash _ hhead_mem
        · exact hdrop
      · refine ⟨(splitOnChar '/' image).dropLast, a,
          by rw [if_neg hlen, if_neg hhead], ?_, ?_, ?_, haslash, haat, htslash, htat⟩
        · rw [if_neg hlen, if_neg hhead]; exact hdefault
        · rw [if_neg hlen, if_neg hhead]; exact hdefault_noslash
        · exact hdropLast
  · simp at h

theorem parser_reparse (reg : List Char) (nsPre : List (List Char)) (a tag : List Char)
    (hregdot : (reg.contains '.' || reg.contains ':') = true)
    (hregslash : '/' ∉ reg)
    (hnsPre : ∀ p ∈ nsPre, '/' ∉ p)
    (ha : '/' ∉ a) (hac : ':' ∉ a) (haat : '@' ∉ a)
    (htg : '/' ∉ tag) (htgc : ':' ∉ tag) (htga : '@' ∉ tag) :
    parser (reg ++ '/' :: (joinChar '/' (nsPre ++ [a]) ++ ':' :: tag)) =
      .ok (reg, joinChar '/' (nsPre ++ [a]), tag) := by
  have hx : '/' ∉ a ++ ':' :: tag := by
    intro hm
    rcases List.mem_append.mp hm with h | h
    · exact ha h
    · rcases List.mem_cons.mp h with h | h
      · exact absurd h.symm (by decide)
      · exact htg h
  have h1 : joinChar '/' (nsPre ++ [a]) ++ ':' :: tag =
      joinChar '/' (nsPre ++ [a ++ ':' :: tag]) :=
    joinChar_extend_last '/' nsPre a (':' :: tag)
  have h2 : splitOnChar '/' (reg ++ '/' :: (joinChar '/' (nsPre ++ [a]) ++ ':' :: tag)) =
      reg :: (nsPre ++ [a ++ ':' :: tag]) := by
    rw [h1, splitOnChar_append, splitOnChar_eq_self '/' reg hregslash,
      splitOnChar_joinChar '/' (nsPre ++ [a ++ ':' :: tag]) (by simp)]
    · rfl
    · intro p hp
      rcases List.mem_append.mp hp with h | h
      · exact hnsPre p h
      · simp at h
        subst h
        exact hx
  have h3 : (reg :: (nsPre ++ [a ++ ':' :: tag])).length = nsPre.length + 2 := by
    simp
  have h4 : (reg :: (nsPre ++ [a ++ ':' :: tag])).getLastD [] = a ++ ':' :: tag := by
    rw [← List.cons_append, List.getLastD_concat]
  have h5 : (a ++ ':' :: tag).contains '@' = false := by
    rw [contains_eq_false_iff]
    intro hm
    rcases List.mem_append.mp hm with h | h
    · exact haat h
    · rcases List.mem_cons.mp h with h | h
      · exact absurd h.symm (by decide)
      · exact htga h
  have h6 : splitOnChar ':' (a ++ ':' :: tag) = [a, tag] := by
    rw [splitOnChar_append, splitOnChar_eq_self ':' a hac, splitOnChar_eq_self ':' tag htgc]
    rfl
  have hmem : '.' ∈ reg ∨ ':' ∈ reg := by simpa using hregdot
  dsimp only [parser]
  rw [h2]
  rw [h3, h4, h5, h6]
  rcases hmem with hm | hm <;> simp [List.dropLast_concat, hm]


/-- Claim C6 counterexample: the parser maps the digest reference
`host:5000/a/b@sha256:dead` to `(host:5000, a/b, sha256:dead)`, but
re-parsing `reg ++ "/" ++ ns ++ ":" ++ tag` does not reproduce the triple:
it fails with the invalid-reference error because the tag contains `:`. -/
theorem parser_roundtrip_counterexample :
    parserS "host:5000/a/b@sha256:dead" = .ok ("host:5000", "a/b", "sha256:dead") ∧
    parserS "host:5000/a/b:sha256:dead" =
      .error "Image format name host:5000/a/b:sha256:dead is invalid" :=
  ⟨rfl, rfl⟩

/-- Claim C6 (amended): for every triple `(reg, ns, tag)` the parser
produces, re-parsing `reg ++ "/" ++ ns ++ ":" ++ tag` reproduces the triple
exactly, provided neither the tag nor the last namespace component contains
a colon (digest references, whose tag contains `:`, fail to re-parse, as do
names whose final component keeps a colon from an `@` split). -/
theorem parser_roundtrip (image reg ns tag : List Char)
    (h : parser image = .ok (reg, ns, tag))
    (htag : ':' ∉ tag)
    (hns : ':' ∉ (splitOnChar '/' ns).getLastD []) :
    parser (reg ++ '/' :: (ns ++ ':' :: tag)) = .ok (reg, ns, tag) := by
  obtain ⟨nsPre, a, hnseq, hdot, hrs, hpre, hasl, haat, htsl, htga⟩ :=
    parser_ok_inv image reg ns tag h
  have hsplitns : splitOnChar '/' ns = nsPre ++ [a] := by
    rw [hnseq]
    apply splitOnChar_joinChar '/' _ (by simp)
    intro p hp
    rcases List.mem_append.mp hp with hm | hm
    · exact hpre p hm
    · simp at hm; subst hm; exact hasl
  have hac : ':' ∉ a := by
    rw [hsplitns, List.getLastD_concat] at hns
    exact hns
  rw [hnseq]
  exact parser_reparse reg nsPre a tag hdot hrs hpre hasl hac haat htsl htag htga

theorem parser_roundtrip_witness :
    parser ("ghcr.io".toList ++ '/' :: ("acme/app".toList ++ ':' :: "v1".toList)) =
      .ok ("ghcr.io".toList, "acme/app".toList, "v1".toList) :=
  parser_roundtrip "ghcr.io/acme/app:v1".toList _ _ _ (by rfl) (by decide) (by decide)

theorem v1_go_length (H : String → String) (lastChain : String)
    (config_image : List (String × JVal)) :
    ∀ (l : List String) (parent : String) (r : List String),
      v1_layers_ids_go H lastChain config_image l parent = .ok r → r.length = l.length := by
  intro l
  induction l with
  | nil =>
    intro parent r h
    simp [v1_layers_ids_go] at h
    simp [← h]
  | cons c rest ih =>
    intro parent r h
    simp only [v1_layers_ids_go] at h
    split at h
    · exact absurd h (by simp)
    · split at h
      · exact absurd h (by simp)
      · rename_i cfg heq rr heq2
        simp only [Except.ok.injEq] at h
        subst h
        simp [ih _ _ heq2]

theorem v1_go_eq (H : String → String) (lastChain : String)
    (config_image : List (String × JVal)) :
    ∀ (l : List String) (parent : String), l ≠ [] →
      l.getLastD "" = lastChain →
      (∀ c ∈ l.dropLast, c ≠ lastChain) →
      v1_layers_ids_go H lastChain config_image l parent =
        v1_layers_ids_spec_go H config_image l parent := by
  intro l
  induction l with
  | nil => intro parent h _ _; exact absurd rfl h
  | cons c rest ih =>
    intro parent _ hlast hdrop
    cases hr : rest with
    | nil =>
      subst hr
      have hceq : c = lastChain := by simpa using hlast
      subst hceq
      simp [v1_layers_ids_go, v1_layers_ids_spec_go]
    | cons r2 rs =>
      have hne : rest ≠ [] := by simp [hr]
      have hlast2 : rest.getLastD "" = lastChain := by
        rw [hr] at hlast ⊢
        exact hlast
      have hcne : c ≠ lastChain := by
        apply hdrop
        rw [hr]
        simp
      have hdrop2 : ∀ x ∈ rest.dropLast, x ≠ lastChain := by
        intro x hx
        apply hdrop
        rw [hr] at hx ⊢
        simp only [List.dropLast_cons₂, List.mem_cons]
        right
        exact hx
      have hbeq : (c == lastChain) = false := by
        simp [hcne]
      have hrec := ih ("sha256:" ++ H (dumpsJ (.obj (midLayerDescriptor c parent))))
        hne hlast2 hdrop2
      rw [hr] at hrec
      simp only [v1_layers_ids_go, v1_layers_ids_spec_go, hbeq, hr, List.isEmpty_cons,
        Bool.false_eq_true, if_false] at hrec ⊢
      rw [hrec]

/-- Claim C2 counterexample: `v1_layers_ids` decides "topmost" by comparing
each chain ID with `chain_ids_list[-1]` by value, not by position.  On the
duplicated list `["a", "a"]` the first (non-top) layer also receives the
merged top template, so the produced first v1 ID differs from the one the
claim's per-position description prescribes. -/
theorem v1_layers_ids_counterexample :
    ((v1_layers_ids (fun s => s) ["a", "a"]
        [("history", .null), ("rootfs", .null)]).toOption.getD []).getD 0 "" ≠
      ((v1_layers_ids_spec (fun s => s) ["a", "a"]
        [("history", .null), ("rootfs", .null)]).toOption.getD []).getD 0 "" := by
  decide

/-- Claim C2 (amended): provided no chain ID before the last equals the last
one (true of genuine chain-ID lists absent SHA-256 collisions),
`v1_layers_ids` produces exactly the claim's per-position descriptor hashes:
one v1 ID per chain ID, in order, where non-top layers use the fixed
template and the topmost layer uses the fixed top template merged with the
image config minus `history` and `rootfs`, each serialized with canonical
JSON (separators `,`/`:`, template key order, `null` for `None`) and
hashed. -/
theorem v1_layers_ids_correct (H : String → String) (chains : List String)
    (config_image : List (String × JVal))
    (hdist : ∀ c ∈ chains.dropLast, c ≠ chains.getLastD "") :
    v1_layers_ids H chains config_image = v1_layers_ids_spec H chains config_image ∧
    ∀ r, v1_layers_ids H chains config_image = .ok r → r.length = chains.length := by
  constructor
  · rcases chains with _ | ⟨c, rest⟩
    · rfl
    · exact v1_go_eq H ((c :: rest).getLastD "") config_image (c :: rest) "" (by simp) rfl
        hdist
  · intro r h
    exact v1_go_length H (chains.getLastD "") config_image chains "" r h

theorem v1_layers_ids_correct_witness :
    (∀ c ∈ (["a", "b"] : List String).dropLast, c ≠ (["a", "b"] : List String).getLastD "") ∧
    v1_layers_ids (fun s => s) ["a", "b"] [("history", .null), ("rootfs", .null)] =
      v1_layers_ids_spec (fun s => s) ["a", "b"] [("history", .null), ("rootfs", .null)] := by
  refine ⟨by decide, ?_⟩
  exact (v1_layers_ids_correct (fun s => s) ["a", "b"]
    [("history", .null), ("rootfs", .null)] (by decide)).1

theorem hdrHas_hdrDel_self (h : Headers) (k : String) :
    hdrHas (hdrDel h k) k = false := by
  induction h with
  | nil => rfl
  | cons p ps ih =>
    by_cases hp : p.1 == k
    · simp [hdrDel, hdrHas, hp]
    · simp [hdrDel, hdrHas, hp]

theorem hdrGet_hdrSet_self (h : Headers) (k v : String) :
    hdrGet (hdrSet h k v) k = some v := by
  unfold hdrGet hdrSet
  by_cases hk : h.any (fun p => p.1 == k)
  · rw [if_pos hk]
    induction h with
    | nil => simp at hk
    | cons p ps ih =>
      by_cases hp : p.1 == k
      · simp [List.find?, hp]
      · simp only [List.any_cons, hp, Bool.false_or] at hk
        simpa [List.find?, hp] using ih hk
  · rw [if_neg hk]
    induction h with
    | nil => simp [List.find?]
    | cons p ps ih =>
      simp only [List.any_cons, Bool.or_eq_true, not_or] at hk
      have hp : (p.1 == k) = false := by
        cases hb : (p.1 == k)
        · rfl
        · exact absurd hb hk.1
      simp only [List.cons_append, List.find?, hp]
      exact ih (by simpa using hk.2)

/-- Claim C7: when `layer.tar` exists and its digest matches the expected
diff ID minus the `sha256:` prefix, `_get_layer` returns success, touches
neither the filesystem nor the session headers, and issues no network
request (empty request log); hence a second call finding the complete valid
layer produces no network traffic. -/
theorem getLayer_skip_complete (b64 : String → String) (user password : Option String)
    (Hf : List Nat → String) (gunzip : List Nat → Option (List Nat)) (net : Net)
    (url layerDigest diffId outputFile : String) (h : Headers) (fs : Fs)
    (content : List Nat)
    (hex : fsGet fs outputFile = some content)
    (hsum : Hf content = diffId.drop 7) :
    getLayer b64 user password Hf gunzip net url layerDigest diffId outputFile h fs =
      ⟨.ok (), h, fs, []⟩ := by
  unfold getLayer
  simp [hex, hsum]

theorem getLayer_skip_complete_witness :
    fsGet [("f", [7])] "f" = some ([7] : List Nat) ∧
    (fun _ : List Nat => "x") [7] = "sha256:x".drop 7 ∧
    getLayer (fun s => s) none none (fun _ => "x") (fun _ => none)
        (fun _ _ _ => ⟨500, none, "", []⟩) "u" "ld" "sha256:x" "f" [] [("f", [7])] =
      ⟨.ok (), [], [("f", [7])], []⟩ := by
  refine ⟨by decide, by decide, ?_⟩
  exact getLayer_skip_complete (fun s => s) none none (fun _ => "x") (fun _ => none)
    (fun _ _ _ => ⟨500, none, "", []⟩) "u" "ld" "sha256:x" "f" [] [("f", [7])] [7]
    (by decide) (by decide)

/-- Claim C10: when `layer.tar` exists with a mismatched digest and the
companion `.gz` is missing, `_get_layer` raises `FileNotFoundError` from
the unconditional `os.path.getsize` call, without issuing any request or
restarting the download. -/
theorem getLayer_missing_gz (b64 : String → String) (user password : Option String)
    (Hf : List Nat → String) (gunzip : List Nat → Option (List Nat)) (net : Net)
    (url layerDigest diffId outputFile : String) (h : Headers) (fs : Fs)
    (content : List Nat)
    (hex : fsGet fs outputFile = some content)
    (hsum : Hf content ≠ diffId.drop 7)
    (hgz : fsGet fs (outputFile ++ ".gz") = none) :
    getLayer b64 user password Hf gunzip net url layerDigest diffId outputFile h fs =
      ⟨.error .fileNotFound, h, fs, []⟩ := by
  unfold getLayer
  simp [hex, hsum, hgz]

theorem getLayer_missing_gz_witness :
    fsGet [("f", [7])] "f" = some ([7] : List Nat) ∧
    (fun _ : List Nat => "y") [7] ≠ "sha256:x".drop 7 ∧
    fsGet [("f", [7])] "f.gz" = none ∧
    getLayer (fun s => s) none none (fun _ => "y") (fun _ => none)
        (fun _ _ _ => ⟨500, none, "", []⟩) "u" "ld" "sha256:x" "f" [] [("f", [7])] =
      ⟨.error .fileNotFound, [], [("f", [7])], []⟩ := by
  refine ⟨by decide, by decide, by decide, ?_⟩
  exact getLayer_missing_gz (fun s => s) none none (fun _ => "y") (fun _ => none)
    (fun _ _ _ => ⟨500, none, "", []⟩) "u" "ld" "sha256:x" "f" [] [("f", [7])] [7]
    (by decide) (by decide) (by decide)

theorem clearRange_not_has (h : Headers) : hdrHas (clearRange h) "Range" = false := by
  unfold clearRange
  split
  · exact hdrHas_hdrDel_self h "Range"
  · rename_i hf
    simpa using hf

theorem getLayerDownload_range_cleared (b64 : String → String)
    (user password : Option String) (gunzip : List Nat → Option (List Nat)) (net : Net)
    (url layerDigest outputFile : String) (appendMode : Bool) (h : Headers) (fs : Fs) :
    ∀ out : LayerOut,
      getLayerDownload b64 user password gunzip net url layerDigest outputFile
        appendMode h fs = out →
      out.result = .ok () → hdrHas out.headers "Range" = false := by
  intro out hgl hok
  unfold getLayerDownload at hgl
  cases hb : (getBlob b64 user password net url layerDigest true h).result with
  | error e => simp only [hb] at hgl; rw [← hgl] at hok; simp at hok
  | ok oro =>
    cases oro with
    | none => simp only [hb] at hgl; rw [← hgl] at hok; simp at hok
    | some r =>
      simp only [hb] at hgl
      cases hfz : fsGet (downloadFs appendMode r fs (outputFile ++ ".gz"))
          (outputFile ++ ".gz") with
      | none => simp only [hfz] at hgl; rw [← hgl] at hok; simp at hok
      | some gzData =>
        simp only [hfz] at hgl
        cases hgu : gunzip gzData with
        | none => simp only [hgu] at hgl; rw [← hgl] at hok; simp at hok
        | some unzipped =>
          simp only [hgu] at hgl
          rw [← hgl]
          exact clearRange_not_has _

/-- Claim C8 (amended): when `_get_layer` returns normally, the session
`Range` header has been cleared (lines 504-505 run before decompression,
and the skip path never sets it); but when an exception escapes the blob
request or the download loop, a `Range` header set for the resume request
is NOT cleared — the deletion is not in a `finally`. -/
theorem getLayer_range_cleared (b64 : String → String) (user password : Option String)
    (Hf : List Nat → String) (gunzip : List Nat → Option (List Nat)) (net : Net)
    (url layerDigest diffId outputFile : String) (h : Headers) (fs : Fs)
    (hnor : hdrHas h "Range" = false)
    (hok : (getLayer b64 user password Hf gunzip net url layerDigest diffId outputFile
        h fs).result = .ok ()) :
    hdrHas (getLayer b64 user password Hf gunzip net url layerDigest diffId outputFile
        h fs).headers "Range" = false := by
  unfold getLayer at hok ⊢
  cases hex : fsGet fs outputFile with
  | none =>
    simp only [hex] at hok ⊢
    exact getLayerDownload_range_cleared b64 user password gunzip net url layerDigest
      outputFile false h fs _ rfl hok
  | some content =>
    simp only [hex] at hok ⊢
    by_cases hsum : Hf content ≠ diffId.drop 7
    · simp only [if_pos hsum] at hok ⊢
      cases hgz : fsGet fs (outputFile ++ ".gz") with
      | none => simp only [hgz] at hok ⊢; simp at hok
      | some gzContent =>
        simp only [hgz] at hok ⊢
        exact getLayerDownload_range_cleared b64 user password gunzip net url layerDigest
          outputFile true
          (hdrSet h "Range" ("bytes=" ++ toString gzContent.length ++ "-")) fs _ rfl hok
    · simp only [if_neg hsum] at hok ⊢
      exact hnor

/-- Claim C8 counterexample: with a mismatched cached layer and an existing
partial `.gz`, a failing blob request (HTTP 500) propagates with the
`Range` header still set on the session: the invariant fails on the error
path. -/
theorem getLayer_range_counterexample :
    ((getLayer (fun s => s) none none (fun _ => "bad") (fun _ => none)
        (fun _ _ _ => ⟨500, none, "", []⟩) "https://r/v2/x/" "sha256:ld" "sha256:good" "f"
        [] [("f", [0]), ("f.gz", [9])]).result = .error .httpError) ∧
    hdrHas (getLayer (fun s => s) none none (fun _ => "bad") (fun _ => none)
        (fun _ _ _ => ⟨500, none, "", []⟩) "https://r/v2/x/" "sha256:ld" "sha256:good" "f"
        [] [("f", [0]), ("f.gz", [9])]).headers "Range" = true := by
  exact ⟨rfl, by decide⟩

theorem getLayer_range_cleared_witness :
    hdrHas ([] : Headers) "Range" = false ∧
    (getLayer (fun s => s) none none (fun _ => "bad") (fun g => some g)
        (fun _ _ _ => ⟨200, none, "", [1]⟩) "https://r/v2/x/" "sha256:ld" "sha256:good" "f"
        [] [("f", [0]), ("f.gz", [9])]).result = .ok () ∧
    hdrHas (getLayer (fun s => s) none none (fun _ => "bad") (fun g => some g)
        (fun _ _ _ => ⟨200, none, "", [1]⟩) "https://r/v2/x/" "sha256:ld" "sha256:good" "f"
        [] [("f", [0]), ("f.gz", [9])]).headers "Range" = false := by
  refine ⟨by decide, by rfl, ?_⟩
  exact getLayer_range_cleared (fun s => s) none none (fun _ => "bad") (fun g => some g)
    (fun _ _ _ => ⟨200, none, "", [1]⟩) "https://r/v2/x/" "sha256:ld" "sha256:good" "f"
    [] [("f", [0]), ("f.gz", [9])] (by decide) (by rfl)

theorem reqFinish_headers (r : HttpResp) (h : Headers) (l : ReqLog) :
    (reqFinish r h l).headers = h := by
  unfold reqFinish
  split
  · rfl
  · split <;> rfl

theorem reqFinish_log (r : HttpResp) (h : Headers) (l : ReqLog) :
    (reqFinish r h l).log = l := by
  unfold reqFinish
  split
  · rfl
  · split <;> rfl

theorem pyUrlunparse_query (sch netl pth Q : String) (hQ : Q ≠ "") :
    pyUrlunparse ⟨sch, netl, pth, "", Q, ""⟩ =
      pyUrlunparse ⟨sch, netl, pth, "", "", ""⟩ ++ "?" ++ Q := by
  unfold pyUrlunparse
  simp [hQ]

theorem tokenUrlOf_plain (realm svc scope host pth : String)
    (hparse : pyUrlparse realm = ⟨"https", host, pth, "", "", ""⟩)
    (hunp : pyUrlunparse ⟨"https", host, pth, "", "", ""⟩ = realm) :
    tokenUrlOf realm svc (some scope) =
      realm ++ "?service=" ++ quotePlus svc ++ "&scope=" ++ quotePlus scope := by
  unfold tokenUrlOf
  rw [hparse]
  dsimp only
  have hqs : parse_qs ("" : String).toList = [] := rfl
  rw [hqs]
  have hq1 : qdictSet (([] : List (String × List String)).map
      (fun p => (p.1, QVal.list p.2))) "service" (.str svc) = [("service", QVal.str svc)] := rfl
  rw [hq1]
  have hq2 : qdictSet [("service", QVal.str svc)] "scope" (.str scope) =
      [("service", QVal.str svc), ("scope", QVal.str scope)] := rfl
  rw [hq2]
  have henc : urlencodeDoseq [("service", QVal.str svc), ("scope", QVal.str scope)] =
      "service=" ++ quotePlus svc ++ "&" ++ ("scope=" ++ quotePlus scope) := by
    unfold urlencodeDoseq
    have h1 : quotePlus "service" = "service" := rfl
    have h2 : quotePlus "scope" = "scope" := rfl
    simp only [List.flatMap_cons, List.flatMap_nil, h1, h2, List.append_nil,
      List.singleton_append, String.intercalate]
    rfl
  rw [henc]
  have hne : ("service=" ++ quotePlus svc ++ "&" ++ ("scope=" ++ quotePlus scope)) ≠ "" := by
    intro hcon
    have := congrArg String.length hcon
    simp [String.length_append] at this
    exact absurd this.1.1.1 (by decide)
  rw [pyUrlunparse_query "https" host pth _ hne, hunp]
  have hfold1 : ∀ X : String, "?" ++ ("service=" ++ X) = "?service=" ++ X := by
    intro X
    rw [← String.append_assoc]
    exact congrArg (fun s => s ++ X) (by decide)
  have hfold2 : ∀ X : String, "&" ++ ("scope=" ++ X) = "&scope=" ++ X := by
    intro X
    rw [← String.append_assoc]
    exact congrArg (fun s => s ++ X) (by decide)
  simp only [String.append_assoc]
  rw [hfold2, hfold1]

/-- Claim C3: when a registry request returns 401, the client parses
`WWW-Authenticate`, issues exactly one token request to the realm with
query `service=<svc>&scope=<scope>` carrying the base64 `user:password`
credentials in `Authorization` when a user is configured, on success
replaces the session `Authorization` with `Bearer <token>`, retries the
original request exactly once (request log = original, token request,
retry), and a second consecutive 401 makes the call raise. -/
theorem auth_retry_correct (b64 : String → String) (user password : Option String)
    (net : Net) (method url : String) (h : Headers)
    (hdr realmStr svc scope host pth : String)
    (h401 : (net method url h).status = 401)
    (hwa : (net method url h).wwwAuthenticate = some hdr)
    (hne : hdr ≠ "")
    (hparse : www_auth hdr = .ok ("bearer",
      [("realm", realmStr), ("service", svc), ("scope", scope)]))
    (hrealmp : pyUrlparse realmStr = ⟨"https", host, pth, "", "", ""⟩)
    (hrealmu : pyUrlunparse ⟨"https", host, pth, "", "", ""⟩ = realmStr)
    (htok : (net "GET"
        (realmStr ++ "?service=" ++ quotePlus svc ++ "&scope=" ++ quotePlus scope)
        (basicHeaders b64 user password h)).status = 200) :
    (reqStep b64 user password net method url h).log =
      [(method, url, h),
       ("GET", realmStr ++ "?service=" ++ quotePlus svc ++ "&scope=" ++ quotePlus scope,
        basicHeaders b64 user password h),
       (method, url, hdrSet (basicHeaders b64 user password h) "Authorization"
          ("Bearer " ++ (net "GET"
            (realmStr ++ "?service=" ++ quotePlus svc ++ "&scope=" ++ quotePlus scope)
            (basicHeaders b64 user password h)).token))] ∧
    hdrGet (reqStep b64 user password net method url h).headers "Authorization" =
      some ("Bearer " ++ (net "GET"
        (realmStr ++ "?service=" ++ quotePlus svc ++ "&scope=" ++ quotePlus scope)
        (basicHeaders b64 user password h)).token) ∧
    (∀ u, user = some u → u ≠ "" →
      hdrGet (basicHeaders b64 user password h) "Authorization" =
        some (b64 (u ++ ":" ++ password.getD "None"))) ∧
    ((net method url (hdrSet (basicHeaders b64 user password h) "Authorization"
        ("Bearer " ++ (net "GET"
          (realmStr ++ "?service=" ++ quotePlus svc ++ "&scope=" ++ quotePlus scope)
          (basicHeaders b64 user password h)).token))).status = 401 →
      (reqStep b64 user password net method url h).result = .error .httpError) ∧
    (acceptedStatus (net method url (hdrSet (basicHeaders b64 user password h) "Authorization"
        ("Bearer " ++ (net "GET"
          (realmStr ++ "?service=" ++ quotePlus svc ++ "&scope=" ++ quotePlus scope)
          (basicHeaders b64 user password h)).token))).status = true →
      (reqStep b64 user password net method url h).result =
        .ok (some (net method url (hdrSet (basicHeaders b64 user password h) "Authorization"
          ("Bearer " ++ (net "GET"
            (realmStr ++ "?service=" ++ quotePlus svc ++ "&scope=" ++ quotePlus scope)
            (basicHeaders b64 user password h)).token))))) := by
  have htueq : tokenUrlOf realmStr svc (some scope) =
      realmStr ++ "?service=" ++ quotePlus svc ++ "&scope=" ++ quotePlus scope :=
    tokenUrlOf_plain realmStr svc scope host pth hrealmp hrealmu
  have hlr : lookupLast [("realm", realmStr), ("service", svc), ("scope", scope)]
      "realm" = some realmStr := rfl
  have hlsv : lookupLast [("realm", realmStr), ("service", svc), ("scope", scope)]
      "service" = some svc := rfl
  have hlsc : lookupLast [("realm", realmStr), ("service", svc), ("scope", scope)]
      "scope" = some scope := rfl
  have ha : authStep b64 user password net (net method url h) h =
      ⟨.ok (), hdrSet (basicHeaders b64 user password h) "Authorization"
          ("Bearer " ++ (net "GET"
            (realmStr ++ "?service=" ++ quotePlus svc ++ "&scope=" ++ quotePlus scope)
            (basicHeaders b64 user password h)).token),
        [("GET", realmStr ++ "?service=" ++ quotePlus svc ++ "&scope=" ++ quotePlus scope,
          basicHeaders b64 user password h)]⟩ := by
    unfold authStep
    rw [hwa]
    simp only [Option.getD_some, if_neg hne, hparse, hlr, hlsv, hlsc, htueq]
    rw [if_neg (by simp)]
    rw [if_neg (by rw [htok]; omega)]
  unfold reqStep
  rw [if_pos h401, ha]
  dsimp only
  refine ⟨?_, ?_, ?_, ?_, ?_⟩
  · rw [reqFinish_log]
    simp
  · rw [reqFinish_headers]
    exact hdrGet_hdrSet_self _ _ _
  · intro u huser hu
    unfold basicHeaders
    rw [huser]
    dsimp only
    rw [if_pos hu]
    exact hdrGet_hdrSet_self _ _ _
  · intro h2
    unfold reqFinish
    rw [if_neg (by rw [h2]; decide), if_pos (by rw [h2]; omega)]
  · intro hacc
    unfold reqFinish
    rw [if_pos hacc]

theorem auth_retry_correct_witness :
    (reqStep (fun s => s) (some "u") (some "p") exNet "GET"
        "https://reg/v2/x/manifests/t" []).log =
      [("GET", "https://reg/v2/x/manifests/t", []),
       ("GET", "https://auth.example/token?service=reg&scope=repository%3Ax%3Apull",
        [("Authorization", "u:p")]),
       ("GET", "https://reg/v2/x/manifests/t", [("Authorization", "Bearer T")])] ∧
    hdrGet (reqStep (fun s => s) (some "u") (some "p") exNet "GET"
        "https://reg/v2/x/manifests/t" []).headers "Authorization" = some "Bearer T" := by
  have h := auth_retry_correct (fun s => s) (some "u") (some "p") exNet "GET"
    "https://reg/v2/x/manifests/t" [] exHdr "https://auth.example/token" "reg"
    "repository:x:pull" "auth.example" "/token"
    (by decide) (by decide) (by decide) (by rfl) (by rfl) (by rfl) (by decide)
  exact ⟨h.1.trans (by decide), (h.2.1).trans (by decide)⟩

theorem map_val_insertByB {α : Type} {P : α → Prop} (le : α → α → Bool) (x : {a // P a}) :
    ∀ s : List {a // P a},
      (insertByB (fun a b => le a.1 b.1) x s).map Subtype.val =
        insertByB le x.1 (s.map Subtype.val) := by
  intro s
  induction s with
  | nil => rfl
  | cons y ys ih =>
    simp only [insertByB, List.map_cons]
    by_cases hle : le x.1 y.1
    · simp [hle]
    · simp [hle, ih]

theorem map_val_sortByB {α : Type} {P : α → Prop} (le : α → α → Bool)
    (s : List {a // P a}) :
    (sortByB (fun a b => le a.1 b.1) s).map Subtype.val = sortByB le (s.map Subtype.val) := by
  induction s with
  | nil => rfl
  | cons y ys ih =>
    simp only [sortByB, List.foldr_cons, List.map_cons]
    rw [show List.foldr (insertByB fun a b => le a.1 b.1) [] ys =
        sortByB (fun a b => le a.1 b.1) ys from rfl]
    rw [map_val_insertByB, ih]
    rfl

theorem flatMap_map_val {α β : Type} {P : α → Prop} (g : α → List β) :
    ∀ s : List {a // P a}, (s.flatMap (fun c => g c.1)) = (s.map Subtype.val).flatMap g := by
  intro s
  induction s with
  | nil => rfl
  | cons y ys ih => simp [ih]

theorem entriesOfNode_dir (created : Nat) (arc nm : String) (m : FileMeta)
    (cs : List FsNode) :
    entriesOfNode created arc (.dir nm m cs) =
      ⟨arc, nm, true, m.mode, 0, 0, entryMtime nm created, "", "", []⟩ ::
        (sortByB nodeNameLe cs).flatMap
          (fun c => entriesOfNode created (nm ++ "/" ++ nodeName c) c) := by
  rw [entriesOfNode]
  congr 1
  rw [flatMap_map_val (fun v => entriesOfNode created (nm ++ "/" ++ nodeName v) v),
    map_val_sortByB nodeNameLe cs.attach,
    List.attach_map_subtype_val]

theorem nodeName_eq_of_sameContents (a b : FsNode) (h : sameContents a b = true) :
    nodeName a = nodeName b := by
  cases a with
  | file n1 c1 m1 =>
    cases b with
    | file n2 c2 m2 =>
      simp only [sameContents, Bool.and_eq_true, beq_iff_eq] at h
      simp [nodeName, h.1.1]
    | dir n2 m2 cs2 => simp [sameContents] at h
  | dir n1 m1 cs1 =>
    cases b with
    | file n2 c2 m2 => simp [sameContents] at h
    | dir n2 m2 cs2 =>
      simp only [sameContents, Bool.and_eq_true, beq_iff_eq] at h
      simp [nodeName, h.1.1]

theorem mem_insertByB {α : Type} (le : α → α → Bool) (x : α) :
    ∀ (s : List α) (y : α), y ∈ insertByB le x s → y = x ∨ y ∈ s := by
  intro s
  induction s with
  | nil => intro y hy; simp [insertByB] at hy; exact Or.inl hy
  | cons z zs ih =>
    intro y hy
    simp only [insertByB] at hy
    by_cases hle : le x z
    · rw [if_pos hle] at hy
      rcases List.mem_cons.mp hy with h | h
      · exact Or.inl h
      · exact Or.inr h
    · rw [if_neg hle] at hy
      rcases List.mem_cons.mp hy with h | h
      · exact Or.inr (h ▸ List.mem_cons_self z zs)
      · rcases ih y h with h2 | h2
        · exact Or.inl h2
        · exact Or.inr (List.mem_cons_of_mem z h2)

theorem mem_sortByB {α : Type} (le : α → α → Bool) :
    ∀ (s : List α) (y : α), y ∈ sortByB le s → y ∈ s := by
  intro s
  induction s with
  | nil => intro y hy; exact hy
  | cons z zs ih =>
    intro y hy
    simp only [sortByB, List.foldr_cons] at hy
    rcases mem_insertByB le z _ y hy with h | h
    · simp [h]
    · exact List.mem_cons_of_mem z (ih y h)

theorem sameList_insertByB (x y : FsNode) (hxy : sameContents x y = true) :
    ∀ (s t : List FsNode), sameList s t = true →
      sameList (insertByB nodeNameLe x s) (insertByB nodeNameLe y t) = true := by
  intro s
  induction s with
  | nil =>
    intro t h
    cases t with
    | nil => simp [insertByB, sameList, hxy]
    | cons b bs => simp [sameList] at h
  | cons a as ih =>
    intro t h
    cases t with
    | nil => simp [sameList] at h
    | cons b bs =>
      simp only [sameList, Bool.and_eq_true] at h
      obtain ⟨hab, hrest⟩ := h
      have hname : nodeNameLe x a = nodeNameLe y b := by
        unfold nodeNameLe
        rw [nodeName_eq_of_sameContents x y hxy, nodeName_eq_of_sameContents a b hab]
      simp only [insertByB, ← hname]
      by_cases hle : nodeNameLe x a
      · simp only [if_pos hle]
        simp [sameList, hxy, hab, hrest]
      · simp only [if_neg hle]
        simp [sameList, hab, ih bs hrest]

theorem sameList_sortByB :
    ∀ (s t : List FsNode), sameList s t = true →
      sameList (sortByB nodeNameLe s) (sortByB nodeNameLe t) = true := by
  intro s
  induction s with
  | nil =>
    intro t h
    cases t with
    | nil => exact h
    | cons b bs => simp [sameList] at h
  | cons a as ih =>
    intro t h
    cases t with
    | nil => simp [sameList] at h
    | cons b bs =>
      simp only [sameList, Bool.and_eq_true] at h
      obtain ⟨hab, hrest⟩ := h
      simp only [sortByB, List.foldr_cons]
      exact sameList_insertByB a b hab _ _ (ih bs hrest)

theorem flatMap_entries_eq (created : Nat) (k : Nat) (arcOf : String → String)
    (ih : ∀ (n1 n2 : FsNode) (arc : String), sizeOf n1 ≤ k → sameContents n1 n2 = true →
      entriesOfNode created arc n1 = entriesOfNode created arc n2) :
    ∀ (s t : List FsNode), sameList s t = true → (∀ c ∈ s, sizeOf c ≤ k) →
      s.flatMap (fun c => entriesOfNode created (arcOf (nodeName c)) c) =
        t.flatMap (fun c => entriesOfNode created (arcOf (nodeName c)) c) := by
  intro s
  induction s with
  | nil =>
    intro t h _
    cases t with
    | nil => rfl
    | cons b bs => simp [sameList] at h
  | cons a as ihs =>
    intro t h hsz
    cases t with
    | nil => simp [sameList] at h
    | cons b bs =>
      simp only [sameList, Bool.and_eq_true] at h
      obtain ⟨hab, hrest⟩ := h
      simp only [List.flatMap_cons]
      rw [nodeName_eq_of_sameContents a b hab,
        ih a b (arcOf (nodeName b)) (hsz a (List.mem_cons_self a as)) hab,
        ihs bs hrest (fun c hc => hsz c (List.mem_cons_of_mem a hc))]

theorem entriesOfNode_eq (created : Nat) :
    ∀ (k : Nat) (n1 n2 : FsNode) (arc : String), sizeOf n1 ≤ k →
      sameContents n1 n2 = true →
      entriesOfNode created arc n1 = entriesOfNode created arc n2 := by
  intro k
  induction k with
  | zero =>
    intro n1 n2 arc hsz _
    exact absurd hsz (by cases n1 <;> simp)
  | succ k ih =>
    intro n1 n2 arc hsz hsc
    cases n1 with
    | file nm1 c1 m1 =>
      cases n2 with
      | file nm2 c2 m2 =>
        simp only [sameContents, Bool.and_eq_true, beq_iff_eq] at hsc
        obtain ⟨⟨hn, hc⟩, hm⟩ := hsc
        subst hn
        subst hc
        simp [entriesOfNode, hm]
      | dir nm2 m2 cs2 => simp [sameContents] at hsc
    | dir nm1 m1 cs1 =>
      cases n2 with
      | file nm2 c2 m2 => simp [sameContents] at hsc
      | dir nm2 m2 cs2 =>
        simp only [sameContents, Bool.and_eq_true, beq_iff_eq] at hsc
        obtain ⟨⟨hn, hm⟩, hsl⟩ := hsc
        subst hn
        rw [entriesOfNode_dir, entriesOfNode_dir, hm]
        congr 1
        have hsorted := sameList_sortByB cs1 cs2 hsl
        have hszc : ∀ c ∈ sortByB nodeNameLe cs1, sizeOf c ≤ k := by
          intro c hc
          have h1 := List.sizeOf_lt_of_mem (mem_sortByB nodeNameLe cs1 c hc)
          simp only [FsNode.dir.sizeOf_spec] at hsz
          omega
        exact flatMap_entries_eq created k (fun s => nm1 ++ "/" ++ s) ih
          (sortByB nodeNameLe cs1) (sortByB nodeNameLe cs2) hsorted hszc

theorem entriesOfNode_fields (created : Nat) :
    ∀ (k : Nat) (n : FsNode) (arc : String) (e : TarEntry), sizeOf n ≤ k →
      e ∈ entriesOfNode created arc n →
      e.uid = 0 ∧ e.gid = 0 ∧ e.uname = "" ∧ e.gname = "" ∧
        e.mtime = (if e.srcName ∈ MANIFEST_NAMES then 0 else created) := by
  intro k
  induction k with
  | zero =>
    intro n arc e hsz _
    exact absurd hsz (by cases n <;> simp)
  | succ k ih =>
    intro n arc e hsz he
    cases n with
    | file nm c m =>
      simp only [entriesOfNode, List.mem_singleton] at he
      subst he
      simp [entryMtime]
    | dir nm m cs =>
      rw [entriesOfNode_dir] at he
      rcases List.mem_cons.mp he with h | h
      · subst h
        simp [entryMtime]
      · rcases List.mem_flatMap.mp h with ⟨c, hc, hec⟩
        have hszc : sizeOf c ≤ k := by
          have h1 := List.sizeOf_lt_of_mem (mem_sortByB nodeNameLe cs c hc)
          simp only [FsNode.dir.sizeOf_spec] at hsz
          omega
        exact ih c (nm ++ "/" ++ nodeName c) e hszc hec

/-- Claim C4 counterexample: the mtime normalization keys on the basename
at any depth, not only on the two top-level files: archiving a staging tree
holding `d/manifest.json` with `created = 5` emits that nested member with
mtime 0, where the claim as stated requires the created timestamp. -/
theorem tar_mtime_counterexample :
    tarEntries 5 [FsNode.dir "d" ⟨493, 0, 0, 0⟩
        [FsNode.file "manifest.json" [1] ⟨420, 0, 0, 77⟩]] =
      [⟨"d", "d", true, 493, 0, 0, 5, "", "", []⟩,
       ⟨"d/manifest.json", "manifest.json", false, 420, 0, 0, 0, "", "", [1]⟩] ∧
    (0 : Nat) ≠ 5 := by
  refine ⟨?_, by decide⟩
  simp only [tarEntries, sortByB, List.foldr_cons, List.foldr_nil, insertByB,
    List.flatMap_cons, List.flatMap_nil, nodeName]
  rw [entriesOfNode_dir]
  simp only [sortByB, List.foldr_cons, List.foldr_nil, insertByB, List.flatMap_cons,
    List.flatMap_nil, nodeName]
  simp only [entriesOfNode, entryMtime, MANIFEST_NAMES]
  norm_num
  decide

/-- Claim C4 (amended): the tar writer is deterministic — staging trees
with the same names, file data and permission bits (arbitrary uid/gid/
mtime metadata) produce byte-identical archives, members being enumerated
depth-first with each directory's entries sorted by ascending name — and
every member is normalized to uid = gid = 0, blank uname/gname, and mtime
equal to the created timestamp except mtime 0 for files *named*
`manifest.json` or `repositories` at any depth (in the staging layout these
occur only at top level, but the code keys on the basename). -/
theorem tar_writer_deterministic (created : Nat) :
    (∀ cs1 cs2 : List FsNode, sameList cs1 cs2 = true →
      archiveBytes created cs1 = archiveBytes created cs2) ∧
    (∀ (cs : List FsNode) (e : TarEntry), e ∈ tarEntries created cs →
      e.uid = 0 ∧ e.gid = 0 ∧ e.uname = "" ∧ e.gname = "" ∧
        e.mtime = (if e.srcName ∈ MANIFEST_NAMES then 0 else created)) := by
  constructor
  · intro cs1 cs2 hsame
    unfold archiveBytes tarEntries
    have hsorted := sameList_sortByB cs1 cs2 hsame
    rw [flatMap_entries_eq created (sizeOf cs1) (fun s => s)
      (fun n1 n2 arc hsz hsc => entriesOfNode_eq created (sizeOf cs1) n1 n2 arc hsz hsc)
      (sortByB nodeNameLe cs1) (sortByB nodeNameLe cs2) hsorted
      (fun c hc => Nat.le_of_lt (List.sizeOf_lt_of_mem (mem_sortByB nodeNameLe cs1 c hc)))]
  · intro cs e he
    unfold tarEntries at he
    rcases List.mem_flatMap.mp he with ⟨c, hc, hec⟩
    exact entriesOfNode_fields created (sizeOf c) c (nodeName c) e (Nat.le_refl _) hec

theorem tar_writer_deterministic_witness :
    sameList [FsNode.file "a" [1] ⟨420, 7, 8, 99⟩] [FsNode.file "a" [1] ⟨420, 0, 0, 5⟩] =
      true ∧
    archiveBytes 3 [FsNode.file "a" [1] ⟨420, 7, 8, 99⟩] =
      archiveBytes 3 [FsNode.file "a" [1] ⟨420, 0, 0, 5⟩] := by
  refine ⟨by decide, ?_⟩
  exact (tar_writer_deterministic 3).1 _ _ (by decide)

/-- Claim C9: on an exception during tar writing, `__exit__` emits no
end-of-archive blocks and removes no staging directory; and whenever the
exit step removes staging directories, the exception slot is empty, the
writer was closed, and the end-of-archive blocks were written first —
staging is destroyed only after a successful close. -/
theorem tar_exit_abort (removeSrcDir : Bool) (addedPaths : List String)
    (st : TarState) (e : PyErr) :
    ((tarExit (some e) removeSrcDir addedPaths st).output = st.output ∧
     (tarExit (some e) removeSrcDir addedPaths st).removedDirs = st.removedDirs) ∧
    (∀ (exc : Option PyErr) (st2 : TarState),
      (tarExit exc removeSrcDir addedPaths st2).removedDirs ≠ st2.removedDirs →
        exc = none ∧
        (tarExit exc removeSrcDir addedPaths st2).closed = true ∧
        (tarExit exc removeSrcDir addedPaths st2).output =
          st2.output ++ List.replicate 1024 0) := by
  constructor
  · unfold tarExit
    constructor <;> simp
  · intro exc st2 hrem
    unfold tarExit at hrem ⊢
    cases exc with
    | none =>
      dsimp only at hrem ⊢
      by_cases hr : removeSrcDir = true
      · rw [if_pos ⟨hr, rfl⟩]
        exact ⟨rfl, rfl, rfl⟩
      · rw [if_neg (fun hcon => hr hcon.1)]
        exact ⟨rfl, rfl, rfl⟩
    | some e2 =>
      exfalso
      apply hrem
      simp

theorem tar_exit_abort_witness :
    (tarExit (some .httpError) true ["x.tmp"] ⟨[7], false, false, []⟩).output = [7] ∧
    (tarExit (some .httpError) true ["x.tmp"] ⟨[7], false, false, []⟩).removedDirs = [] := by
  exact (tar_exit_abort true ["x.tmp"] ⟨[7], false, false, []⟩ .httpError).1
